import Mathlib

/-!
Verification of the Englitune speech-pronunciation scoring pipeline.

This file gives a shallow embedding of the pipeline's pure core — text
normalization, LCS text diffing, the CTC Viterbi forced aligner, the GOP
score aggregator, the mel-spectrogram feature extractor, the speech-rate
estimator and the Brazilian-Portuguese L1 score adjuster — and proves the
behavioural properties stated for them.

Strings are modelled as `List Char`; JavaScript floating-point numbers are
modelled as exact rationals (`ℚ`) where the code only performs field and
order operations, and as real numbers (`ℝ`) where it uses `exp`, `log`,
`sqrt` or trigonometry.  `Math.round` is modelled as `⌊x + 1/2⌋`,
`Math.floor` as `Int.floor`.
-/

namespace Englitune

/-- JavaScript `Math.round`: round half toward positive infinity. -/
def jsRound {α : Type} [LinearOrderedField α] [FloorRing α] (x : α) : ℤ :=
  ⌊x + 1 / 2⌋

/-! ### Text Normalizer (`normalizeText`, speechUtils.ts) -/

/-- JavaScript regex `\w` character class: `[A-Za-z0-9_]`. -/
def isWordChar (c : Char) : Bool :=
  (65 ≤ c.toNat && c.toNat ≤ 90) || (97 ≤ c.toNat && c.toNat ≤ 122) ||
  (48 ≤ c.toNat && c.toNat ≤ 57) || c.toNat == 95

/-- JavaScript regex `\s` character class (whitespace, incl. Unicode spaces). -/
def isSpaceChar (c : Char) : Bool :=
  (9 ≤ c.toNat && c.toNat ≤ 13) || c.toNat == 32 || c.toNat == 160 ||
  c.toNat == 5760 || (8192 ≤ c.toNat && c.toNat ≤ 8202) || c.toNat == 8232 ||
  c.toNat == 8233 || c.toNat == 8239 || c.toNat == 8287 || c.toNat == 12288 ||
  c.toNat == 65279

/-- Characters kept by the stripping step: word characters, whitespace, apostrophe. -/
def keepChar (c : Char) : Bool :=
  isWordChar c || isSpaceChar c || c == '\''

/-- The hyphen-to-space replacement step, per character. -/
def dashToSpace (c : Char) : Char := if c = '-' then ' ' else c

/-- The whitespace-collapsing step: every maximal run of whitespace
characters becomes a single ASCII space. -/
def collapseWs : List Char → List Char
  | [] => []
  | c :: rest =>
    if isSpaceChar c then ' ' :: collapseWs (rest.dropWhile isSpaceChar)
    else c :: collapseWs rest
termination_by l => l.length
decreasing_by
· exact Nat.lt_succ_of_le ((List.dropWhile_sublist _).length_le)
· exact Nat.lt_succ_self _

/-- The `.trim()` step. -/
def trimWs (l : List Char) : List Char :=
  ((l.dropWhile isSpaceChar).reverse.dropWhile isSpaceChar).reverse

/-- Embeds `normalizeText` (speechUtils.ts): lowercase, hyphens to spaces,
strip characters other than word characters/whitespace/apostrophes, collapse
whitespace runs, trim. -/
def normalizeText (text : List Char) : List Char :=
  trimWs (collapseWs (((text.map Char.toLower).map dashToSpace).filter keepChar))

/-- JavaScript `str.split(" ")`. -/
def splitOnSpace : List Char → List (List Char)
  | [] => [[]]
  | c :: rest =>
    let r := splitOnSpace rest
    if c = ' ' then [] :: r
    else (c :: r.headD []) :: r.tail

/-- A character that can appear in `normalizeText` output: it survives the
strip, is fixed by lowercasing, is not a hyphen, and if whitespace it is the
single ASCII space. -/
def goodChar (c : Char) : Prop :=
  keepChar c = true ∧ Char.toLower c = c ∧ c ≠ '-' ∧ (isSpaceChar c = true → c = ' ')

/-- No two adjacent whitespace characters. -/
def sparse (l : List Char) : Prop :=
  List.Chain' (fun a b => isSpaceChar a = false ∨ isSpaceChar b = false) l

/-- Canonical form of `normalizeText` output. -/
def normalized (l : List Char) : Prop :=
  (∀ c ∈ l, goodChar c) ∧ sparse l ∧
  (∀ c, l.head? = some c → isSpaceChar c = false) ∧
  (∀ c, l.getLast? = some c → isSpaceChar c = false)

/-! ### LCS table and diff scorer (`computeLCS`, `buildDiff`, `compareTexts`) -/

/-- Entry `dp[i][j]` of the LCS dynamic-programming table built by
`computeLCS`: row 0 and column 0 stay at their initial 0, and the fill loop
computes `dp[i][j] = dp[i-1][j-1]+1` on equality of `a[i-1]` and `b[j-1]`,
else `max(dp[i-1][j], dp[i][j-1])`. -/
def lcsEntry {α : Type} [DecidableEq α] [Inhabited α] (a b : List α) : ℕ → ℕ → ℕ
  | 0, _ => 0
  | _ + 1, 0 => 0
  | i + 1, j + 1 =>
    if a.getD i default = b.getD j default then lcsEntry a b i j + 1
    else max (lcsEntry a b i (j + 1)) (lcsEntry a b (i + 1) j)
termination_by i j => i + j

/-- Embeds `computeLCS` (speechUtils.ts): the full
`(a.length+1) × (b.length+1)` table. -/
def computeLCS {α : Type} [DecidableEq α] [Inhabited α] (a b : List α) :
    List (List ℕ) :=
  (List.range (a.length + 1)).map fun i =>
    (List.range (b.length + 1)).map fun j => lcsEntry a b i j

/-- Specification-side definition (not from the source): the length of a
longest common subsequence, by the textbook front-recursion.  Used to state
that the source's DP table is correct. -/
def lcsList {α : Type} [DecidableEq α] : List α → List α → ℕ
  | [], _ => 0
  | _ :: _, [] => 0
  | x :: xs, y :: ys =>
    if x = y then lcsList xs ys + 1
    else max (lcsList xs (y :: ys)) (lcsList (x :: xs) ys)
termination_by xs ys => xs.length + ys.length

/-- Specification-side definition: `k` is the true longest-common-subsequence
length of `a` and `b` — some common subsequence attains it and none exceeds it. -/
def isLCSLength {α : Type} (a b : List α) (k : ℕ) : Prop :=
  (∃ s : List α, s.Sublist a ∧ s.Sublist b ∧ s.length = k) ∧
  ∀ s : List α, s.Sublist a → s.Sublist b → s.length ≤ k

/-- Status tag of a diffed word. -/
inductive WordStatus
  | correct
  | missing
  | extra
deriving DecidableEq, Repr

/-- Result entry of the text-diff scorer. -/
structure WordResult where
  word : List Char
  status : WordStatus
deriving DecidableEq, Repr

/-- Result of `compareTexts`. -/
structure CompareResult where
  words : List WordResult
  score : ℤ
deriving DecidableEq, Repr

/-- The backtracking walk of `buildDiff` (speechUtils.ts), producing entries
in walk order (most significant index first); `buildDiff` reverses them.
At `(i+1, j+1)`: emit `correct` on a match, else `extra` when
`dp[i+1][j] ≥ dp[i][j+1]`, else `missing`; when one index is zero the other
axis is drained. -/
def buildDiffWalk (o s : List (List Char)) (dp : List (List ℕ)) :
    ℕ → ℕ → List WordResult
  | 0, 0 => []
  | 0, j + 1 => ⟨s.getD j [], .extra⟩ :: buildDiffWalk o s dp 0 j
  | i + 1, 0 => ⟨o.getD i [], .missing⟩ :: buildDiffWalk o s dp i 0
  | i + 1, j + 1 =>
    if o.getD i [] = s.getD j [] then
      ⟨o.getD i [], .correct⟩ :: buildDiffWalk o s dp i j
    else if (dp.getD i []).getD (j + 1) 0 ≤ (dp.getD (i + 1) []).getD j 0 then
      ⟨s.getD j [], .extra⟩ :: buildDiffWalk o s dp (i + 1) j
    else
      ⟨o.getD i [], .missing⟩ :: buildDiffWalk o s dp i (j + 1)
termination_by i j => i + j

/-- Embeds `buildDiff` (speechUtils.ts). -/
def buildDiff (original spoken : List (List Char)) (dp : List (List ℕ)) :
    List WordResult :=
  (buildDiffWalk original spoken dp original.length spoken.length).reverse

/-- Embeds `compareTexts` (speechUtils.ts). -/
def compareTexts (original spoken : List Char) : CompareResult :=
  let normOriginal := normalizeText original
  let normSpoken := normalizeText spoken
  if normOriginal = [] then
    let extraWords := if normSpoken = [] then [] else splitOnSpace normSpoken
    { words := extraWords.map fun w => ⟨w, .extra⟩
      score := if extraWords.length = 0 then 100 else 0 }
  else
    let originalWords := splitOnSpace normOriginal
    let spokenWords := if normSpoken = [] then [] else splitOnSpace normSpoken
    if spokenWords.length = 0 then
      { words := originalWords.map fun w => ⟨w, .missing⟩, score := 0 }
    else
      let dp := computeLCS originalWords spokenWords
      let words := buildDiff originalWords spokenWords dp
      let correctCount := (words.filter fun w => w.status = .correct).length
      { words := words
        score := jsRound (((correctCount : ℚ) / originalWords.length) * 100) }

/-! ### CTC Viterbi forced aligner (`viterbiAlign`) -/

/-- CTC blank token id (`BLANK_IDX` in the source). -/
def BLANK_IDX : ℕ := 1024

/-- The expanded CTC state sequence: `blank, tok0, blank, tok1, ..., blank`. -/
def expandCTC (tokens : List ℕ) : List ℕ :=
  tokens.foldr (fun t acc => BLANK_IDX :: t :: acc) [BLANK_IDX]

/-- Token held by expanded state `s` (out-of-range reads give blank, matching
the source where such reads never influence the result). -/
def expTok (tokens : List ℕ) (s : ℕ) : ℕ :=
  (expandCTC tokens).getD s BLANK_IDX

/-- The large negative sentinel `-1e30` used instead of `-Infinity`. -/
def NEG_INF : ℚ := -(10 ^ 30)

/-- Viterbi initialization at frame 0: state 0 gets the blank log-prob,
state 1 (when it exists) the first token's log-prob, all others `NEG_INF`. -/
def vitStart (lp : ℕ → ℕ → ℚ) (tokens : List ℕ) : ℕ → ℚ := fun s =>
  if s = 0 then lp 0 BLANK_IDX
  else if s = 1 ∧ 1 < (expandCTC tokens).length then lp 0 (expTok tokens 1)
  else NEG_INF

/-- One state's best predecessor among stay (`s`), advance (`s-1`) and skip
(`s-2`); the skip is allowed only into a non-blank state whose token differs
from the state two back.  Returns (best predecessor score, predecessor). -/
def bestTrans (prevRow : ℕ → ℚ) (tokens : List ℕ) (s : ℕ) : ℚ × ℕ :=
  let b0 : ℚ × ℕ := (prevRow s, s)
  let b1 : ℚ × ℕ :=
    if 0 < s ∧ b0.1 < prevRow (s - 1) then (prevRow (s - 1), s - 1) else b0
  if 1 < s ∧ expTok tokens s ≠ BLANK_IDX ∧
      expTok tokens (s - 2) ≠ expTok tokens s ∧ b1.1 < prevRow (s - 2) then
    (prevRow (s - 2), s - 2)
  else b1

/-- Cumulative Viterbi scores after processing frame `t`. -/
def vitRow (lp : ℕ → ℕ → ℚ) (tokens : List ℕ) : ℕ → (ℕ → ℚ)
  | 0 => vitStart lp tokens
  | t + 1 => fun s =>
    (bestTrans (vitRow lp tokens t) tokens s).1 + lp (t + 1) (expTok tokens s)

/-- Best final state: the last blank, or the last token state if it scored
strictly higher. -/
def vitBestEnd (lp : ℕ → ℕ → ℚ) (tokens : List ℕ) (T : ℕ) : ℕ :=
  let S := (expandCTC tokens).length
  if 1 < S ∧ vitRow lp tokens (T - 1) (S - 1) < vitRow lp tokens (T - 1) (S - 2)
  then S - 2
  else S - 1

/-- Backtracked state path for frames `0..t`, ending at state `s`. -/
def vitPath (lp : ℕ → ℕ → ℚ) (tokens : List ℕ) : ℕ → ℕ → List ℕ
  | 0, s => [s]
  | t + 1, s =>
    vitPath lp tokens t ((bestTrans (vitRow lp tokens t) tokens s).2) ++ [s]

/-- Embeds `viterbiAlign` (source): given the `T × V` log-probability matrix
(as a function) and the expected token sequence, returns the per-frame
aligned token ids and their log-probabilities on the winning path. -/
def viterbiAlign (T : ℕ) (lp : ℕ → ℕ → ℚ) (tokens : List ℕ) :
    List ℕ × List ℚ :=
  let path := vitPath lp tokens (T - 1) (vitBestEnd lp tokens T)
  (path.map (expTok tokens),
   List.zipWith (fun t s => lp t (expTok tokens s)) (List.range T) path)

/-- Specification-side definition: collapse consecutive duplicate tokens. -/
def collapseDupTokens : List ℕ → List ℕ
  | [] => []
  | [a] => [a]
  | a :: b :: rest =>
    if a = b then collapseDupTokens (b :: rest)
    else a :: collapseDupTokens (b :: rest)

/-- Specification-side definition: the CTC collapse used in the claim —
merge consecutive duplicates, then remove blanks. -/
def ctcCollapse (l : List ℕ) : List ℕ :=
  (collapseDupTokens l).filter fun x => x ≠ BLANK_IDX

/-! ### Pronunciation result data model (types.ts) -/

/-- Per-phoneme score entry (`PhonemeScore` in types.ts).  The score type is
a parameter: `ℚ` where only field/order arithmetic occurs, `ℝ` downstream of
the logistic squash. -/
structure PhonemeScore (α : Type) where
  phoneme : String
  score : α
  expected : Bool
  l1Feedback : Option String := none
  originalScore : Option α := none
deriving DecidableEq

/-- Per-word pronunciation result (`WordPronunciationResult` in types.ts).
Word-level scores are always produced by `Math.round`, hence `ℤ`. -/
structure WordPronunciationResult (α : Type) where
  word : List Char
  phonemes : List (PhonemeScore α)
  score : ℤ
  originalScore : Option ℤ := none
deriving DecidableEq

/-- Whole-utterance pronunciation result (`PronunciationResult` in types.ts). -/
structure PronunciationResult (α : Type) where
  words : List (WordPronunciationResult α)
  overallScore : ℤ
  transcript : List Char
  decodedTranscript : Option (List Char) := none
  originalOverallScore : Option ℤ := none
deriving DecidableEq

instance {α : Type} [Inhabited α] : Inhabited (PhonemeScore α) :=
  ⟨⟨"", default, true, none, none⟩⟩

instance {α : Type} : Inhabited (WordPronunciationResult α) :=
  ⟨⟨[], [], 0, none⟩⟩

instance {α : Type} : Inhabited (PronunciationResult α) :=
  ⟨⟨[], 0, [], none, none⟩⟩

/-- The `(word, idx) => ...` indexed map used by the source's `.map`
callbacks that take the element index. -/
def mapIdx {α β : Type} (f : ℕ → α → β) : ℕ → List α → List β
  | _, [] => []
  | i, a :: rest => f i a :: mapIdx f (i + 1) rest

/-! ### Phoneme lookup (`getPhonemes`, `phonemeToIpa`) -/

/-- The ARPABET → IPA display table of the source. -/
def ARPABET_TO_IPA : List (String × String) :=
  [("AA", "ɑ"), ("AE", "æ"), ("AH", "ʌ"), ("AO", "ɔ"), ("AW", "aʊ"),
   ("AY", "aɪ"), ("B", "b"), ("CH", "tʃ"), ("D", "d"), ("DH", "ð"),
   ("EH", "ɛ"), ("ER", "ɝ"), ("EY", "eɪ"), ("F", "f"), ("G", "ɡ"),
   ("HH", "h"), ("IH", "ɪ"), ("IY", "i"), ("JH", "dʒ"), ("K", "k"),
   ("L", "l"), ("M", "m"), ("N", "n"), ("NG", "ŋ"), ("OW", "oʊ"),
   ("OY", "ɔɪ"), ("P", "p"), ("R", "ɹ"), ("S", "s"), ("SH", "ʃ"),
   ("T", "t"), ("TH", "θ"), ("UH", "ʊ"), ("UW", "u"), ("V", "v"),
   ("W", "w"), ("Y", "j"), ("Z", "z"), ("ZH", "ʒ")]

/-- JavaScript `String.toLowerCase` on a Lean `String` (ASCII model). -/
def toLowerString (s : String) : String :=
  String.mk (s.data.map Char.toLower)

/-- Embeds `phonemeToIpa`: table lookup with lowercasing fallback. -/
def phonemeToIpa (arpabet : String) : String :=
  (ARPABET_TO_IPA.lookup arpabet).getD (toLowerString arpabet)

/-- Embeds `getPhonemes`.  The CMU pronouncing dictionary is an external
package resource, so it is a parameter `dict` (entries modelled as character
lists like all other strings); an absent (or empty, which is falsy in
JavaScript) entry yields no phonemes.  The entry is split on spaces and
stress digits are stripped from each phoneme. -/
def getPhonemes (dict : List Char → Option (List Char)) (word : List Char) :
    List String :=
  match dict (word.map Char.toLower) with
  | none => []
  | some entry =>
    if entry = [] then []
    else (splitOnSpace entry).map fun p =>
      String.mk (p.filter fun c => !c.isDigit)

/-! ### L1 accent adjuster (`applyL1Scoring` and helpers) -/

/-- One entry of the Brazilian-Portuguese confusion table. -/
structure BRConfusionEntry where
  subs : List String
  feedback : String
  tier : ℕ
  context : Option (List String → ℕ → Bool) := none

/-- The ARPABET vowels used by the coda check. -/
def arpaVowels : List String :=
  ["AA", "AE", "AH", "AO", "AW", "AY", "EH", "ER", "EY", "IH", "IY",
   "OW", "OY", "UH", "UW"]

/-- Embeds `isCoda`: the phoneme is word-final or followed by a consonant. -/
def isCoda (phonemes : List String) (idx : ℕ) : Bool :=
  if phonemes.length ≤ idx + 1 then true
  else !(arpaVowels.contains (phonemes.getD (idx + 1) ""))

/-- Embeds `isBeforeHighFrontVowel`: next phoneme is IH or IY. -/
def isBeforeHighFrontVowel (phonemes : List String) (idx : ℕ) : Bool :=
  if phonemes.length ≤ idx + 1 then false
  else
    let next := phonemes.getD (idx + 1) ""
    next == "IH" || next == "IY"

/-- The `BR_CONFUSION` table of the source. -/
def BR_CONFUSION : List (String × BRConfusionEntry) :=
  [("TH", ⟨["T", "F"], "θ → t/f", 1, none⟩),
   ("DH", ⟨["D", "V"], "ð → d/v", 1, none⟩),
   ("R", ⟨["HH"], "ɹ → h", 1, none⟩),
   ("NG", ⟨["N"], "ŋ → n", 1, none⟩),
   ("ZH", ⟨["Z", "SH"], "ʒ → z/ʃ", 1, none⟩),
   ("AE", ⟨["EH", "AA"], "æ → ɛ/ɑ", 2, none⟩),
   ("IH", ⟨["IY"], "ɪ → i", 2, none⟩),
   ("AH", ⟨["AA", "AO"], "ʌ → ɑ/ɔ", 2, none⟩),
   ("UH", ⟨["UW"], "ʊ → u", 2, none⟩),
   ("EY", ⟨["EH"], "eɪ → ɛ", 2, none⟩),
   ("OW", ⟨["AO"], "oʊ → ɔ", 2, none⟩),
   ("ER", ⟨["EH", "R"], "ɝ → ɛɹ", 2, none⟩),
   ("AY", ⟨["AA", "AH"], "aɪ → a", 2, none⟩),
   ("AW", ⟨["AA", "AO"], "aʊ → a/ɔ", 2, none⟩),
   ("OY", ⟨["OW"], "ɔɪ → ɔ", 2, none⟩),
   ("HH", ⟨[], "h silent", 3, none⟩),
   ("L", ⟨["W"], "ɫ → w", 3, some isCoda⟩),
   ("T", ⟨["CH"], "t → tʃ before /i/", 3, some isBeforeHighFrontVowel⟩),
   ("D", ⟨["JH"], "d → dʒ before /i/", 3, some isBeforeHighFrontVowel⟩),
   ("S", ⟨["SH"], "s → ʃ (coda)", 3, some isCoda⟩),
   ("Z", ⟨["S"], "z → s (devoicing)", 3, some isCoda⟩)]

/-- Boost factor per tier (`TIER_BOOST`). -/
def TIER_BOOST : List (ℕ × ℚ) := [(1, 0.5), (2, 0.4), (3, 0.25)]

/-- Prosody boost factor for phonemes outside the confusion table. -/
def PROSODY_BOOST : ℚ := 0.1

/-- Multiplier applied when the decoded text confirms the substitution. -/
def CONFIRMED_BOOST_MULTIPLIER : ℚ := 1.5

/-- JavaScript `str.includes(sub)` on character lists. -/
def jsIncludes : List Char → List Char → Bool
  | [], pat => pat.isEmpty
  | c :: rest, pat => pat.isPrefixOf (c :: rest) || jsIncludes rest pat

/-- JavaScript `str.replace(/th/g, rep)` on character lists. -/
def replaceThWith (rep : List Char) : List Char → List Char
  | [] => []
  | c :: rest =>
    if c = 't' ∧ rest.take 1 = ['h'] then rep ++ replaceThWith rep (rest.drop 1)
    else c :: replaceThWith rep rest
termination_by l => l.length
decreasing_by
· simpa using Nat.lt_succ_of_le (Nat.sub_le rest.length 1)
· exact Nat.lt_succ_self _

/-- The scanning loop of `isSubstitutionConfirmed`: returns false immediately
on an exactly-matching decoded word, true on a th-substitution or an
epenthesis pattern, and otherwise continues with the next decoded word. -/
def confirmLoop (expected : List Char) : List (List Char) → Bool
  | [] => false
  | dw :: rest =>
    let decoded := dw.map Char.toLower
    if decoded = expected then false
    else if jsIncludes expected ['t', 'h'] &&
        (jsIncludes decoded ['t'] || jsIncludes decoded ['d'] ||
          jsIncludes decoded ['f']) &&
        (decide (decoded = replaceThWith ['t'] expected) ||
         decide (decoded = replaceThWith ['d'] expected) ||
         decide (decoded = replaceThWith ['f'] expected)) then true
    else if decide (expected.length < decoded.length) &&
        (('i' :: expected).isPrefixOf decoded ||
         ('e' :: expected).isPrefixOf decoded) then true
    else if decide (decoded.length = expected.length + 1) &&
        expected.isPrefixOf decoded &&
        (decide (decoded.getLast? = some 'i') ||
         decide (decoded.getLast? = some 'e')) then true
    else confirmLoop expected rest

/-- Embeds `isSubstitutionConfirmed`. -/
def isSubstitutionConfirmed (expectedWord : List Char)
    (decodedWords : List (List Char)) : Bool :=
  confirmLoop (expectedWord.map Char.toLower) decodedWords

/-- The tiered-boost branch of the phoneme adjustment (applies the tier's
boost factor, the 1.5× confirmation multiplier, and the 0.85 cap; always
attaches feedback and the original score). -/
def tierAdjust (confusion : BRConfusionEntry) (confirmed : Bool) (deficit : ℚ)
    (ph : PhonemeScore ℚ) : PhonemeScore ℚ :=
  let boost0 := deficit * (TIER_BOOST.lookup confusion.tier).getD 0
  let boost := if confirmed then boost0 * CONFIRMED_BOOST_MULTIPLIER else boost0
  let adjusted := min 0.85 (ph.score + boost)
  { ph with
    originalScore := some ph.score
    score := adjusted
    l1Feedback := some confusion.feedback }

/-- Per-phoneme adjustment of `applyL1Scoring` (the body of the inner
`.map((ph, idx) => ...)`). -/
def adjustPhoneme (phonemes : List String) (confirmed : Bool) (idx : ℕ)
    (ph : PhonemeScore ℚ) : PhonemeScore ℚ :=
  let arpabet := phonemes.getD idx ""
  if arpabet = "" then ph
  else if 0.45 ≤ ph.score then ph
  else
    let deficit := 0.85 - ph.score
    match BR_CONFUSION.lookup arpabet with
    | some confusion =>
      match confusion.context with
      | some ctx =>
        if ctx phonemes idx = false then
          let boost := deficit * PROSODY_BOOST
          let adjusted := min 0.85 (ph.score + boost)
          if adjusted = ph.score then ph
          else { ph with
                 originalScore := some ph.score
                 score := adjusted
                 l1Feedback := some "prosody/accent" }
        else tierAdjust confusion confirmed deficit ph
      | none => tierAdjust confusion confirmed deficit ph
    | none =>
      let boost0 := deficit * PROSODY_BOOST
      let boost := if confirmed then boost0 * CONFIRMED_BOOST_MULTIPLIER
        else boost0
      let adjusted := min 0.85 (ph.score + boost)
      if adjusted = ph.score then ph
      else { ph with
             originalScore := some ph.score
             score := adjusted
             l1Feedback := some "prosody/accent" }

/-- Mean of the phoneme scores of a word, 0 when there are none (the
`avgScore` computation of `applyL1Scoring`). -/
def avgPhonemeScore (phs : List (PhonemeScore ℚ)) : ℚ :=
  if 0 < phs.length then (phs.map fun p => p.score).sum / phs.length else 0

/-- Per-word adjustment of `applyL1Scoring` (the body of the outer
`.map((wordResult, wordIdx) => ...)`). -/
def adjustWord (dict : List Char → Option (List Char))
    (decodedWords : List (List Char)) (wordIdx : ℕ)
    (w : WordPronunciationResult ℚ) : WordPronunciationResult ℚ :=
  let phonemes := getPhonemes dict w.word
  let nearby := (decodedWords.drop (wordIdx - 1)).take
    (min decodedWords.length (wordIdx + 2) - (wordIdx - 1))
  let confirmed := isSubstitutionConfirmed w.word nearby
  let adjustedPhonemes := mapIdx (adjustPhoneme phonemes confirmed) 0 w.phonemes
  { w with
    phonemes := adjustedPhonemes
    originalScore := some w.score
    score := jsRound (avgPhonemeScore adjustedPhonemes * 100) }

/-- The decoded-transcript word list used for substitution confirmation
(the `decodedWords` computation of `applyL1Scoring`). -/
def l1DecodedWords (result : PronunciationResult ℚ) : List (List Char) :=
  match result.decodedTranscript with
  | some dt => (splitOnSpace (normalizeText dt)).filter fun w => w ≠ []
  | none => []

/-- Embeds `applyL1Scoring`: a no-op for any tag other than `"pt-BR"`;
otherwise adjusts each word's phonemes and recomputes word and overall
scores, retaining the pre-adjustment values. -/
def applyL1Scoring (dict : List Char → Option (List Char))
    (result : PronunciationResult ℚ) (l1 : String) : PronunciationResult ℚ :=
  if l1 ≠ "pt-BR" then result
  else
    let adjustedWords := mapIdx (adjustWord dict (l1DecodedWords result)) 0 result.words
    let overallAdjusted :=
      if 0 < adjustedWords.length then
        jsRound ((((adjustedWords.map fun w => w.score).sum : ℤ) : ℚ) /
          adjustedWords.length)
      else 0
    { result with
      words := adjustedWords
      originalOverallScore := some result.overallScore
      overallScore := overallAdjusted }

/-- Concrete input for the claim C3 counterexample: a single word with a
single phoneme already scoring 0.9 (at or above the 0.45 threshold). -/
def c3Input : PronunciationResult ℚ :=
  ⟨[⟨['x'], [⟨"x", 0.9, true, none, none⟩], 90, none⟩], 90, ['x'], none, none⟩

/-- Concrete input for claim C10: one word, two phonemes at 0.5 and 0.6
(both at or above the threshold), with a word score of 90 that does not
match the phoneme mean. -/
def c10Input : PronunciationResult ℚ :=
  ⟨[⟨['h', 'i'],
     [⟨"h", 1/2, true, none, none⟩, ⟨"i", 3/5, true, none, none⟩],
     90, none⟩], 90, ['h', 'i'], none, none⟩

/-! ### Speech-rate estimator (`estimateSpeechRate`, `selectHopLength`) -/

/-- Frame count of the speech-rate estimator:
`max(1, floor((N - 320) / 160))` over JavaScript number arithmetic. -/
def erNFrames (len : ℕ) : ℕ :=
  (max 1 (⌊((len : ℚ) - 320) / 160⌋)).toNat

/-- RMS energy of analysis frame `f` (20 ms frame, summing squares only
while in bounds). -/
noncomputable def erEnergy (audio : List ℝ) (f : ℕ) : ℝ :=
  Real.sqrt ((((List.range 320).map fun i =>
    if f * 160 + i < audio.length then
      audio.getD (f * 160 + i) 0 * audio.getD (f * 160 + i) 0
    else 0).sum) / 320)

/-- Moving-average smoothing of the energy envelope over ±5 frames. -/
noncomputable def erSmoothed (audio : List ℝ) (nFrames : ℕ) (f : ℕ) : ℝ :=
  let lo := f - 5
  let hi := min (nFrames - 1) (f + 5)
  let window := List.range' lo (hi + 1 - lo)
  ((window.map (erEnergy audio)).sum) / window.length

/-- Maximum of the smoothed envelope (starting from 0 as in the source). -/
noncomputable def erMaxE (audio : List ℝ) (nFrames : ℕ) : ℝ :=
  ((List.range nFrames).map (erSmoothed audio nFrames)).foldl max 0

/-- Number of local maxima of the smoothed envelope strictly above 15% of
its maximum (interior frames only). -/
noncomputable def erPeaks (audio : List ℝ) (nFrames : ℕ) : ℕ :=
  ((List.range nFrames).filter fun f =>
    1 ≤ f ∧ f < nFrames - 1 ∧
    erSmoothed audio nFrames (f - 1) < erSmoothed audio nFrames f ∧
    erSmoothed audio nFrames (f + 1) < erSmoothed audio nFrames f ∧
    erMaxE audio nFrames * 0.15 < erSmoothed audio nFrames f).length

/-- Embeds `estimateSpeechRate` (source): returns 150 wpm for audio with
fewer than 5 analysis frames, otherwise converts the peak count to words
per minute at 1.4 syllables per word. -/
noncomputable def estimateSpeechRate (audio : List ℝ) : ℤ :=
  let nFrames := erNFrames audio.length
  if nFrames < 5 then 150
  else
    let peaks := erPeaks audio nFrames
    let durationSec := (audio.length : ℝ) / 16000
    let syllablesPerSec := (peaks : ℝ) / durationSec
    jsRound (syllablesPerSec / 1.4 * 60)

/-- Embeds `selectHopLength`: 3-tier adaptive hop from the speech rate. -/
noncomputable def selectHopLength (audio : List ℝ) : ℕ :=
  let wpm := estimateSpeechRate audio
  if 240 < wpm then 80 else if 180 < wpm then 120 else 160

/-! ### Mel spectrogram (`computeMelSpectrogram` and helpers) -/

/-- Embeds `hzToMel`. -/
noncomputable def hzToMel (hz : ℝ) : ℝ := 2595 * Real.logb 10 (1 + hz / 700)

/-- Embeds `melToHz`. -/
noncomputable def melToHz (mel : ℝ) : ℝ := 700 * ((10 : ℝ) ^ (mel / 2595) - 1)

/-- Embeds `createHannWindow` (as a function of the index). -/
noncomputable def createHannWindow (length i : ℕ) : ℝ :=
  0.5 * (1 - Real.cos (2 * Real.pi * i / length))

/-- Mel-spaced center frequencies of `createMelFilterbank` (82 points). -/
noncomputable def melPoints (i : ℕ) : ℝ :=
  hzToMel 0 + (hzToMel 8000 - hzToMel 0) * i / 81

/-- FFT bin indices of the filterbank corner frequencies. -/
noncomputable def binPoints (i : ℕ) : ℤ :=
  ⌊(513 : ℝ) * melToHz (melPoints i) / 16000⌋

/-- Triangular filter weight of mel band `m` at frequency bin `k`. -/
noncomputable def melFilter (m k : ℕ) : ℝ :=
  let start := binPoints m
  let center := binPoints (m + 1)
  let stop := binPoints (m + 2)
  if start ≤ (k : ℤ) ∧ (k : ℤ) ≤ center ∧ start < center then
    ((k : ℝ) - (start : ℝ)) / ((center : ℝ) - (start : ℝ))
  else if center < (k : ℤ) ∧ (k : ℤ) ≤ stop ∧ center < stop then
    (((stop : ℝ)) - (k : ℝ)) / ((stop : ℝ) - (center : ℝ))
  else 0

/-- The inner while loop of the FFT bit-reversal (advances `j`). -/
def brStep : ℕ → ℕ → ℕ
  | j, bit =>
    if h : j &&& bit ≠ 0 then brStep (j ^^^ bit) (bit / 2) else j ^^^ bit
termination_by j bit => bit
decreasing_by
  refine Nat.div_lt_self ?_ (by norm_num)
  rcases Nat.eq_zero_or_pos bit with hb | hb
  · exact absurd (by rw [hb]; exact Nat.and_zero j) h
  · exact hb

/-- Pointwise array swap. -/
def swapAt (g : ℕ → ℝ) (i j : ℕ) : ℕ → ℝ := fun k =>
  if k = i then g j else if k = j then g i else g k

/-- One iteration of the FFT bit-reversal permutation pass. -/
def bitRevStep (n : ℕ) (st : ((ℕ → ℝ) × (ℕ → ℝ)) × ℕ) (i : ℕ) :
    ((ℕ → ℝ) × (ℕ → ℝ)) × ℕ :=
  let re := st.1.1
  let im := st.1.2
  let j := brStep st.2 (n / 2)
  if i < j then ((swapAt re i j, swapAt im i j), j)
  else ((re, im), j)

/-- The FFT bit-reversal permutation pass (`i` from 1 to `n-1`, `j` from 0). -/
def bitRevPass (n : ℕ) (re im : ℕ → ℝ) : (ℕ → ℝ) × (ℕ → ℝ) :=
  ((List.range' 1 (n - 1)).foldl (bitRevStep n) ((re, im), 0)).1

/-- One butterfly of the FFT inner loop, carrying the running twiddle. -/
noncomputable def bflyStep (w : ℝ × ℝ) (base halfLen : ℕ)
    (st : ((ℕ → ℝ) × (ℕ → ℝ)) × (ℝ × ℝ)) (j : ℕ) :
    ((ℕ → ℝ) × (ℕ → ℝ)) × (ℝ × ℝ) :=
  let re := st.1.1
  let im := st.1.2
  let cur := st.2
  let p := base + j
  let q := base + j + halfLen
  let uR := re p
  let uI := im p
  let tR := cur.1 * re q - cur.2 * im q
  let tI := cur.1 * im q + cur.2 * re q
  ((fun k => if k = p then uR + tR else if k = q then uR - tR else re k,
    fun k => if k = p then uI + tI else if k = q then uI - tI else im k),
   (cur.1 * w.1 - cur.2 * w.2, cur.1 * w.2 + cur.2 * w.1))

/-- One block (offset `blk * len`) of an FFT stage. -/
noncomputable def bflyBlock (w : ℝ × ℝ) (halfLen len : ℕ)
    (st : (ℕ → ℝ) × (ℕ → ℝ)) (blk : ℕ) : (ℕ → ℝ) × (ℕ → ℝ) :=
  ((List.range halfLen).foldl (bflyStep w (blk * len) halfLen)
    (st, (1, 0))).1

/-- One FFT stage (`len = 2^(s+1)`). -/
noncomputable def bflyStage (n : ℕ) (st : (ℕ → ℝ) × (ℕ → ℝ)) (s : ℕ) :
    (ℕ → ℝ) × (ℕ → ℝ) :=
  let len : ℕ := 2 ^ (s + 1)
  let halfLen : ℕ := len / 2
  let angle := -(2 * Real.pi) / (len : ℝ)
  let w := (Real.cos angle, Real.sin angle)
  (List.range (n / len)).foldl (bflyBlock w halfLen len) st

/-- Embeds the iterative radix-2 in-place `fft` of the source (arrays as
functions; `n` a power of two, 512 at every use site). -/
noncomputable def fft (n : ℕ) (re im : ℕ → ℝ) : (ℕ → ℝ) × (ℕ → ℝ) :=
  (List.range (Nat.log2 n)).foldl (bflyStage n) (bitRevPass n re im)

/-- Pre-emphasis filter (`y[0] = x[0]; y[i] = x[i] - 0.97 x[i-1]`). -/
noncomputable def preEmph (audio : List ℝ) (i : ℕ) : ℝ :=
  if i = 0 then audio.getD 0 0
  else audio.getD i 0 - 0.97 * audio.getD (i - 1) 0

/-- Pre-emphasized signal with Box–Muller dither added; the two uniform
draws per sample are supplied by the `noise` parameter (the source uses
`Math.random()`, with a zero first draw replaced by `1e-10`). -/
noncomputable def dithered (noise : ℕ → ℝ × ℝ) (audio : List ℝ) (i : ℕ) : ℝ :=
  let u1 := if (noise i).1 = 0 then 1e-10 else (noise i).1
  let u2 := (noise i).2
  preEmph audio i +
    1e-5 * Real.sqrt (-2 * Real.log u1) * Real.cos (2 * Real.pi * u2)

/-- Frame count of the mel spectrogram:
`max(1, 1 + floor((N - 400) / hop))`. -/
def numFramesOf (len hop : ℕ) : ℕ :=
  (max 1 (1 + ⌊((len : ℚ) - 400) / (hop : ℚ)⌋)).toNat

/-- Windowed, zero-padded FFT input of frame `t`. -/
noncomputable def melFrameInput (noise : ℕ → ℝ × ℝ) (audio : List ℝ)
    (hop t : ℕ) : ℕ → ℝ := fun i =>
  if i < 400 then
    (if t * hop + i < audio.length then dithered noise audio (t * hop + i)
     else 0) * createHannWindow 400 i
  else 0

/-- Power spectrum of frame `t` at bin `k`. -/
noncomputable def melPowerSpec (noise : ℕ → ℝ × ℝ) (audio : List ℝ)
    (hop t k : ℕ) : ℝ :=
  let out := fft 512 (melFrameInput noise audio hop t) (fun _ => 0)
  out.1 k * out.1 k + out.2 k * out.2 k

/-- Log-mel energy of band `m` at frame `t` (clamped at `1e-10`). -/
noncomputable def melValue (noise : ℕ → ℝ × ℝ) (audio : List ℝ)
    (hop m t : ℕ) : ℝ :=
  Real.log (max (((List.range 257).map fun k =>
    melFilter m k * melPowerSpec noise audio hop t k).sum) 1e-10)

/-- Per-band mean over all frames. -/
noncomputable def melMean (noise : ℕ → ℝ × ℝ) (audio : List ℝ)
    (hop numFrames m : ℕ) : ℝ :=
  (((List.range numFrames).map fun t => melValue noise audio hop m t).sum) /
    numFrames

/-- Per-band standard deviation with the `|| 1` zero guard. -/
noncomputable def melStd (noise : ℕ → ℝ × ℝ) (audio : List ℝ)
    (hop numFrames m : ℕ) : ℝ :=
  let mean := melMean noise audio hop numFrames m
  let s := Real.sqrt ((((List.range numFrames).map fun t =>
    (melValue noise audio hop m t - mean) * (melValue noise audio hop m t - mean)).sum) /
    numFrames)
  if s = 0 then 1 else s

/-- Normalized mel feature of band `m` at frame `t`. -/
noncomputable def melNorm (noise : ℕ → ℝ × ℝ) (audio : List ℝ)
    (hop numFrames m t : ℕ) : ℝ :=
  (melValue noise audio hop m t - melMean noise audio hop numFrames m) /
    melStd noise audio hop numFrames m

/-- Embeds `computeMelSpectrogram` (source): returns the flat row-major
`[80, numFrames]` feature array and the frame count.  The ambient
`Math.random()` dither source is the explicit `noise` parameter. -/
noncomputable def computeMelSpectrogram (noise : ℕ → ℝ × ℝ)
    (audio : List ℝ) : List ℝ × ℕ :=
  let hop := selectHopLength audio
  let numFrames := numFramesOf audio.length hop
  ((List.range (80 * numFrames)).map fun idx =>
    melNorm noise audio hop numFrames (idx / numFrames) (idx % numFrames),
   numFrames)

/-! ### GOP score aggregation (`computeGopScores` and helpers) -/

/-- Embeds `getWordTokenRanges`: contiguous `[start, end)` token ranges per
word, detected from word-boundary-marker pieces via the reverse token map
(token pieces modelled as character lists). -/
def getWordTokenRanges (tokens : List ℕ) (revMap : ℕ → Option (List Char)) :
    List (ℕ × ℕ) :=
  let st := (List.range tokens.length).foldl
    (fun (st : List (ℕ × ℕ) × ℕ) (i : ℕ) =>
      let tokenStr := (revMap (tokens.getD i 0)).getD []
      if "▁".data.isPrefixOf tokenStr ∧ 0 < i then
        (st.1 ++ [(st.2, i)], i)
      else st)
    ([], 0)
  st.1 ++ [(st.2, tokens.length)]

/-- Forward search of `findTokenInRange` (from `startIdx` upward). -/
def findFwd (tokens : List ℕ) (target : ℕ) : ℕ → Option ℕ := fun i =>
  if h : i < tokens.length then
    if tokens.getD i 0 = target then some i else findFwd tokens target (i + 1)
  else none
termination_by i => tokens.length - i

/-- Backward search of `findTokenInRange` (from `startIdx - 1` down to 0). -/
def findBack (tokens : List ℕ) (target : ℕ) : ℕ → Option ℕ
  | 0 => none
  | i + 1 => if tokens.getD i 0 = target then some i else findBack tokens target i

/-- Embeds `findTokenInRange` (forward from `startIdx`, then backward;
`-1` when absent). -/
def findTokenInRange (startIdx : ℕ) (tokens : List ℕ) (target : ℕ) : ℤ :=
  match findFwd tokens target startIdx with
  | some i => i
  | none =>
    match findBack tokens target startIdx with
    | some i => i
    | none => -1

/-- `tokenFrameScores[k].push(x)`. -/
def pushScore (tfs : List (List ℝ)) (k : ℕ) (x : ℝ) : List (List ℝ) :=
  tfs.set k (tfs.getD k [] ++ [x])

/-- One iteration of the frame-attribution loop of `computeGopScores`:
attribute frame `t`'s score to the matching token slot (searching forward
then backward on mismatch), then advance `tokenIdx` when the next frame
carries the next token. -/
def attrStep (tokens alignment : List ℕ) (scores : List ℝ)
    (st : ℕ × List (List ℝ)) (t : ℕ) : ℕ × List (List ℝ) :=
  let tokenIdx := st.1
  let tfs := st.2
  if alignment.getD t 0 ≠ BLANK_IDX ∧ tokenIdx < tokens.length then
    let st2 :=
      if alignment.getD t 0 = tokens.getD tokenIdx 0 then
        (tokenIdx, pushScore tfs tokenIdx (scores.getD t 0))
      else
        let found := findTokenInRange tokenIdx tokens (alignment.getD t 0)
        if 0 ≤ found then
          (if tokenIdx ≤ found.toNat then found.toNat else tokenIdx,
           pushScore tfs found.toNat (scores.getD t 0))
        else (tokenIdx, tfs)
    if 0 < (st2.2.getD st2.1 []).length ∧ st2.1 < tokens.length - 1 ∧
        t + 1 < alignment.length ∧
        alignment.getD (t + 1) 0 = tokens.getD (st2.1 + 1) 0 then
      (st2.1 + 1, st2.2)
    else st2
  else st

/-- The per-token frame-score lists after the attribution loop. -/
def tokenFrameScores (tokens alignment : List ℕ) (scores : List ℝ) :
    List (List ℝ) :=
  ((List.range alignment.length).foldl (attrStep tokens alignment scores)
    (0, List.replicate tokens.length [])).2

/-- The sigmoid normalization of the source, centered at −2.0 with
temperature 1.5: `1 / (1 + exp(-(x + 2.0) / 1.5))`. -/
noncomputable def logisticSquash (x : ℝ) : ℝ :=
  1 / (1 + Real.exp (-(x + 2.0) / 1.5))

/-- All frame scores attributed to the tokens of one word range. -/
def wordFrames (tfs : List (List ℝ)) (range : ℕ × ℕ) : List ℝ :=
  ((List.range' range.1 (range.2 - range.1)).map fun ti =>
    tfs.getD ti []).flatten

/-- Average attributed log-probability of a word (−10 when no frames). -/
noncomputable def wordAvgLogProb (tfs : List (List ℝ)) (range : ℕ × ℕ) : ℝ :=
  let ws := wordFrames tfs range
  if 0 < ws.length then ws.sum / ws.length else -10

/-- Embeds `distributeScoreToPhonemes`: split the word's frames into
phoneme-proportional segments (each at least one frame), average, squash. -/
noncomputable def distributeScoreToPhonemes (phonemes : List String)
    (frameScores : List ℝ) : List (PhonemeScore ℝ) :=
  if frameScores.length = 0 then
    phonemes.map fun ph =>
      ⟨phonemeToIpa ph, logisticSquash (-10), true, none, none⟩
  else
    (List.range phonemes.length).map fun (pi : ℕ) =>
      let startFrame := (⌊(pi : ℚ) / phonemes.length * frameScores.length⌋).toNat
      let endFrame := max (startFrame + 1)
        (⌊((pi : ℚ) + 1) / phonemes.length * frameScores.length⌋).toNat
      let seg := List.range' startFrame (min endFrame frameScores.length - startFrame)
      let avgLP : ℝ := if 0 < seg.length then
          ((seg.map fun f => frameScores.getD f 0).sum) / seg.length
        else -10
      ⟨phonemeToIpa (phonemes.getD pi ""), logisticSquash avgLP, true, none, none⟩

/-- The word list of `computeGopScores`:
`normalizeText(expectedText).split(" ").filter(Boolean)`. -/
def gopWords (text : List Char) : List (List Char) :=
  (splitOnSpace (normalizeText text)).filter fun w => w ≠ []

/-- One word's result in `computeGopScores`: the word-level sigmoid score
(rounded ×100) and the per-phoneme scores (a single word-unit when the word
has no dictionary phonemes). -/
noncomputable def mkWordResult (dict : List Char → Option (List Char))
    (tfs : List (List ℝ)) (ranges : List (ℕ × ℕ)) (words : List (List Char))
    (wi : ℕ) : WordPronunciationResult ℝ :=
  let word := words.getD wi []
  let wordScores := wordFrames tfs (ranges.getD wi (0, 0))
  let rawScore := logisticSquash (wordAvgLogProb tfs (ranges.getD wi (0, 0)))
  let phonemes := getPhonemes dict word
  let phonemeScores := if 0 < phonemes.length then
      distributeScoreToPhonemes phonemes wordScores
    else [⟨String.mk word, rawScore, true, none, none⟩]
  ⟨word, phonemeScores, jsRound (rawScore * 100), none⟩

/-- Embeds `computeGopScores` (source): empty result when the reverse token
map is not loaded or there are no words, otherwise per-word results and the
rounded mean as overall score. -/
noncomputable def computeGopScores (revMap : Option (ℕ → Option (List Char)))
    (dict : List Char → Option (List Char)) (alignment : List ℕ)
    (scores : List ℝ) (tokens : List ℕ) (expectedText : List Char) :
    PronunciationResult ℝ :=
  let words := gopWords expectedText
  match revMap with
  | none => ⟨[], 0, expectedText, none, none⟩
  | some rm =>
    if words.length = 0 then ⟨[], 0, expectedText, none, none⟩
    else
      let ranges := getWordTokenRanges tokens rm
      let tfs := tokenFrameScores tokens alignment scores
      let wordResults := (List.range (min words.length ranges.length)).map
        (mkWordResult dict tfs ranges words)
      let overallScore := if 0 < wordResults.length then
          jsRound ((((wordResults.map fun w => w.score).sum : ℤ) : ℚ) /
            wordResults.length)
        else 0
      ⟨wordResults, overallScore, expectedText, none, none⟩

/-- Specification-side definition: the mean of a list of real phoneme
scores (0 when empty), as in claim C2's "mean of its phoneme scores". -/
noncomputable def meanPhonemeScore (phs : List (PhonemeScore ℝ)) : ℝ :=
  if 0 < phs.length then (phs.map fun p => p.score).sum / phs.length else 0

/-- Concrete reverse token map for the claim C2 counterexample. -/
def c2RevMap : ℕ → Option (List Char) :=
  fun n => if n = 7 then some "▁a".data else none

/-- Concrete dictionary for the claim C2 counterexample: the word "a" has
the two-phoneme entry "AH0 B". -/
def c2Dict : List Char → Option (List Char) :=
  fun w => if w = ['a'] then some "AH0 B".data else none

end Englitune

/-! ## Theorems -/

namespace Englitune

theorem charOfNat_toNat (n : ℕ) (h : n < 55296) : (Char.ofNat n).toNat = n := by
  unfold Char.ofNat
  rw [dif_pos (Or.inl h)]
  unfold Char.ofNatAux Char.toNat
  simp [UInt32.toNat]

theorem toLower_toNat (c : Char) :
    (Char.toLower c).toNat =
      if 65 ≤ c.toNat ∧ c.toNat ≤ 90 then c.toNat + 32 else c.toNat := by
  show ((let n := c.toNat; if n ≥ 65 ∧ n ≤ 90 then Char.ofNat (n + 32) else c)).toNat = _
  simp only []
  split
  · next h => rw [charOfNat_toNat _ (by omega)]
  · rfl

theorem toLower_fix (c : Char) (h : ¬(65 ≤ c.toNat ∧ c.toNat ≤ 90)) :
    Char.toLower c = c := by
  show (let n := c.toNat; if n ≥ 65 ∧ n ≤ 90 then Char.ofNat (n + 32) else c) = c
  simp only []
  rw [if_neg (fun hc => h (by omega))]

theorem toLower_idem (c : Char) :
    Char.toLower (Char.toLower c) = Char.toLower c := by
  by_cases h : 65 ≤ c.toNat ∧ c.toNat ≤ 90
  · apply toLower_fix
    rw [toLower_toNat, if_pos h]
    omega
  · rw [toLower_fix c h, toLower_fix c h]

/-! ### Idempotence of the text normalizer (claim C9) -/

theorem dropWhile_head_false {α : Type} {p : α → Bool} {l : List α} {c : α}
    {t : List α} (h : l.dropWhile p = c :: t) : p c = false := by
  induction l with
  | nil => simp [List.dropWhile] at h
  | cons a rest ih =>
    rw [List.dropWhile] at h
    cases hp : p a with
    | true => rw [hp] at h; exact ih h
    | false => rw [hp] at h; cases h; exact hp

theorem bool_eq_false {b : Bool} (h : ¬b = true) : b = false := by
  revert h
  cases b <;> simp

theorem mem_collapseWs {c : Char} :
    ∀ {l : List Char}, c ∈ collapseWs l →
      c = ' ' ∨ (c ∈ l ∧ isSpaceChar c = false) := by
  intro l
  induction l using collapseWs.induct with
  | case1 =>
    intro h
    rw [collapseWs] at h
    cases h
  | case2 d rest hd ih =>
    rw [collapseWs, if_pos hd]
    intro h
    rcases List.mem_cons.mp h with h | h
    · exact Or.inl h
    · rcases ih h with h | ⟨hm, hs⟩
      · exact Or.inl h
      · exact Or.inr ⟨List.mem_cons_of_mem d ((List.dropWhile_sublist _).subset hm), hs⟩
  | case3 d rest hd ih =>
    rw [collapseWs, if_neg hd]
    intro h
    rcases List.mem_cons.mp h with h | h
    · subst h
      exact Or.inr ⟨List.mem_cons_self _ _, bool_eq_false hd⟩
    · rcases ih h with h | ⟨hm, hs⟩
      · exact Or.inl h
      · exact Or.inr ⟨List.mem_cons_of_mem d hm, hs⟩

theorem collapseWs_sparse : ∀ l : List Char, sparse (collapseWs l) := by
  intro l
  induction l using collapseWs.induct with
  | case1 =>
    rw [collapseWs]
    exact List.chain'_nil
  | case2 d rest hd ih =>
    rw [collapseWs, if_pos hd]
    cases hdr : (rest.dropWhile isSpaceChar) with
    | nil =>
      rw [collapseWs]
      exact List.chain'_singleton _
    | cons e t =>
      have he : isSpaceChar e = false := dropWhile_head_false hdr
      have hcw : collapseWs (e :: t) = e :: collapseWs t := by
        rw [collapseWs, if_neg (by simp [he])]
      rw [hdr] at ih
      rw [hcw] at ih ⊢
      exact List.chain'_cons.mpr ⟨Or.inr he, ih⟩
  | case3 d rest hd ih =>
    rw [collapseWs, if_neg hd]
    have hdb : isSpaceChar d = false := bool_eq_false hd
    cases hr : collapseWs rest with
    | nil => exact List.chain'_singleton _
    | cons e t =>
      rw [hr] at ih
      exact List.chain'_cons.mpr ⟨Or.inl hdb, ih⟩

theorem collapseWs_eq_self :
    ∀ l : List Char, (∀ c ∈ l, isSpaceChar c = true → c = ' ') → sparse l →
      collapseWs l = l := by
  intro l
  induction l with
  | nil =>
    intro _ _
    rw [collapseWs]
  | cons c rest ih =>
    intro hmem hsp
    by_cases hc : isSpaceChar c = true
    · rw [collapseWs, if_pos hc]
      have hc' : c = ' ' := hmem c (List.mem_cons_self _ _) hc
      cases rest with
      | nil =>
        rw [List.dropWhile, collapseWs, hc']
      | cons d t =>
        have hd : isSpaceChar d = false := by
          rcases List.chain'_cons.mp hsp with ⟨h1 | h1, _⟩
          · rw [hc] at h1; cases h1
          · exact h1
        rw [List.dropWhile, hd]
        rw [ih (fun x hx h => hmem x (List.mem_cons_of_mem c hx) h)
          (List.chain'_cons.mp hsp).2, hc']
    · rw [collapseWs, if_neg hc]
      rw [ih (fun x hx h => hmem x (List.mem_cons_of_mem c hx) h)
        ((List.chain'_cons'.mp hsp).2)]

theorem dropWhile_eq_self_of_head {α : Type} {p : α → Bool} {l : List α}
    (h : ∀ c, l.head? = some c → p c = false) : l.dropWhile p = l := by
  cases l with
  | nil => rfl
  | cons a t =>
    rw [List.dropWhile, h a rfl]

theorem trimWs_eq_self {l : List Char}
    (hh : ∀ c, l.head? = some c → isSpaceChar c = false)
    (hl : ∀ c, l.getLast? = some c → isSpaceChar c = false) : trimWs l = l := by
  unfold trimWs
  rw [dropWhile_eq_self_of_head hh]
  rw [dropWhile_eq_self_of_head (fun c hc => hl c (by rwa [List.head?_reverse] at hc))]
  exact List.reverse_reverse l

theorem rev_dropWhile_front (p : Char → Bool) (Y : List Char) :
    (Y.reverse.dropWhile p).reverse <+: Y := by
  have h := List.reverse_prefix.mpr (List.dropWhile_suffix (l := Y.reverse) p)
  rwa [List.reverse_reverse] at h

theorem trimWs_within (l : List Char) : trimWs l <:+: l := by
  unfold trimWs
  exact (rev_dropWhile_front _ _).isInfix.trans (List.dropWhile_suffix _).isInfix

theorem trimWs_head {l : List Char} {c : Char}
    (hc : (trimWs l).head? = some c) : isSpaceChar c = false := by
  unfold trimWs at hc
  set Y := l.dropWhile isSpaceChar with hY
  obtain ⟨t, ht⟩ := rev_dropWhile_front isSpaceChar Y
  have hYhead : Y.head? = some c := by
    cases hX : (Y.reverse.dropWhile isSpaceChar).reverse with
    | nil => rw [hX] at hc; cases hc
    | cons a s =>
      rw [hX] at hc ht
      rw [← ht]
      simpa using hc
  cases hYe : Y with
  | nil => rw [hYe] at hYhead; cases hYhead
  | cons y ys =>
    rw [hYe] at hYhead
    simp only [List.head?_cons, Option.some.injEq] at hYhead
    subst hYhead
    exact dropWhile_head_false (hY.symm.trans hYe)

theorem trimWs_last {l : List Char} {c : Char}
    (hc : (trimWs l).getLast? = some c) : isSpaceChar c = false := by
  rw [← List.head?_reverse] at hc
  unfold trimWs at hc
  rw [List.reverse_reverse] at hc
  cases hX : (l.dropWhile isSpaceChar).reverse.dropWhile isSpaceChar with
  | nil => rw [hX] at hc; cases hc
  | cons a s =>
    rw [hX] at hc
    simp only [List.head?_cons, Option.some.injEq] at hc
    subst hc
    exact dropWhile_head_false hX

theorem map_eq_self_of_fixed {α : Type} {f : α → α} :
    ∀ {l : List α}, (∀ c ∈ l, f c = c) → l.map f = l := by
  intro l
  induction l with
  | nil => intro _; rfl
  | cons a t ih =>
    intro h
    rw [List.map_cons, h a (List.mem_cons_self _ _),
      ih fun c hc => h c (List.mem_cons_of_mem a hc)]

theorem normalizeText_normalized (text : List Char) :
    normalized (normalizeText text) := by
  unfold normalizeText
  set S0 := ((text.map Char.toLower).map dashToSpace).filter keepChar with hS0
  set S1 := collapseWs S0 with hS1
  refine ⟨?_, ?_, ?_, ?_⟩
  · intro c hc
    have hc1 : c ∈ S1 := (trimWs_within S1).sublist.subset hc
    rcases mem_collapseWs hc1 with h | ⟨hmem, hns⟩
    · subst h
      exact ⟨by decide, by decide, by decide, fun _ => rfl⟩
    · have hkeep := (List.mem_filter.mp hmem).2
      obtain ⟨y, hy, hyc⟩ := List.mem_map.mp (List.mem_filter.mp hmem).1
      obtain ⟨x, hx, hxy⟩ := List.mem_map.mp hy
      by_cases hdash : y = '-'
      · exfalso
        rw [← hyc, hdash] at hns
        simp [dashToSpace, isSpaceChar] at hns
      · have hcy : c = y := by
          rw [← hyc]
          unfold dashToSpace
          rw [if_neg hdash]
        have hlow : Char.toLower c = c := by
          rw [hcy, ← hxy]
          exact toLower_idem x
        have hnd : c ≠ '-' := by
          rw [hcy]
          exact hdash
        exact ⟨hkeep, hlow, hnd,
          fun hs => (Bool.false_ne_true (hns.symm.trans hs)).elim⟩
  · exact List.Chain'.infix (collapseWs_sparse S0) (trimWs_within S1)
  · intro c hc
    exact trimWs_head hc
  · intro c hc
    exact trimWs_last hc

theorem normalizeText_eq_self {l : List Char} (h : normalized l) :
    normalizeText l = l := by
  obtain ⟨hgood, hsp, hh, hl⟩ := h
  unfold normalizeText
  rw [map_eq_self_of_fixed fun c hc => (hgood c hc).2.1]
  rw [map_eq_self_of_fixed fun c hc => by
    unfold dashToSpace
    exact if_neg (hgood c hc).2.2.1]
  rw [List.filter_eq_self.mpr fun c hc => (hgood c hc).1]
  rw [collapseWs_eq_self l (fun c hc hs => (hgood c hc).2.2.2 hs) hsp]
  exact trimWs_eq_self hh hl

/-- Claim C9: `normalizeText` is idempotent — for every input string `T`,
`normalizeText (normalizeText T) = normalizeText T`. -/
theorem c9_normalizeText_idempotent (text : List Char) :
    normalizeText (normalizeText text) = normalizeText text :=
  normalizeText_eq_self (normalizeText_normalized text)

/-! ### Correctness of the LCS table (claim C6) -/

theorem lcsList_exists {α : Type} [DecidableEq α] :
    ∀ xs ys : List α, ∃ s : List α,
      s.Sublist xs ∧ s.Sublist ys ∧ s.length = lcsList xs ys := by
  intro xs
  induction xs with
  | nil =>
    intro ys
    exact ⟨[], List.nil_sublist _, List.nil_sublist _, by rw [lcsList]; rfl⟩
  | cons x xs ihx =>
    intro ys
    induction ys with
    | nil =>
      exact ⟨[], List.nil_sublist _, List.nil_sublist _, by rw [lcsList]; rfl⟩
    | cons y ys ihy =>
      by_cases heq : x = y
      · obtain ⟨s, h1, h2, h3⟩ := ihx ys
        subst heq
        refine ⟨x :: s, List.cons_sublist_cons.mpr h1, List.cons_sublist_cons.mpr h2, ?_⟩
        rw [lcsList, if_pos rfl, List.length_cons, h3]
      · rcases Nat.le_total (lcsList (x :: xs) ys) (lcsList xs (y :: ys)) with hle | hle
        · obtain ⟨s, h1, h2, h3⟩ := ihx (y :: ys)
          refine ⟨s, h1.trans (List.sublist_cons_self x xs), h2, ?_⟩
          rw [lcsList, if_neg heq, Nat.max_eq_left hle, h3]
        · obtain ⟨s, h1, h2, h3⟩ := ihy
          refine ⟨s, h1, h2.trans (List.sublist_cons_self y ys), ?_⟩
          rw [lcsList, if_neg heq, Nat.max_eq_right hle, h3]

theorem lcsList_le {α : Type} [DecidableEq α] :
    ∀ xs ys s : List α, s.Sublist xs → s.Sublist ys →
      s.length ≤ lcsList xs ys := by
  intro xs
  induction xs with
  | nil =>
    intro ys s hx _
    rw [List.sublist_nil.mp hx]
    exact Nat.zero_le _
  | cons x xs ihx =>
    intro ys
    induction ys with
    | nil =>
      intro s _ hy
      rw [List.sublist_nil.mp hy]
      exact Nat.zero_le _
    | cons y ys ihy =>
      intro s hx hy
      cases s with
      | nil => exact Nat.zero_le _
      | cons c s' =>
        by_cases heq : x = y
        · have hsx : s'.Sublist xs := by
            cases hx with
            | cons _ h => exact (List.sublist_cons_self c s').trans h
            | cons₂ _ h => exact h
          have hsy : s'.Sublist ys := by
            cases hy with
            | cons _ h => exact (List.sublist_cons_self c s').trans h
            | cons₂ _ h => exact h
          rw [lcsList, if_pos heq, List.length_cons]
          exact Nat.succ_le_succ (ihx ys s' hsx hsy)
        · rw [lcsList, if_neg heq]
          cases hx with
          | cons _ h =>
            exact le_max_iff.mpr (Or.inl (ihx (y :: ys) (c :: s') h hy))
          | cons₂ _ h =>
            cases hy with
            | cons _ h2 =>
              exact le_max_iff.mpr
                (Or.inr (ihy (x :: s') (List.cons_sublist_cons.mpr h) h2))
            | cons₂ _ h2 => exact absurd rfl heq

theorem lcsEntry_bridge {α : Type} [DecidableEq α] [Inhabited α] (a b : List α) :
    ∀ i, i ≤ a.length → ∀ j, j ≤ b.length →
      lcsEntry a b i j = lcsList (a.take i).reverse (b.take j).reverse := by
  intro i
  induction i with
  | zero =>
    intro _ j _
    rw [lcsEntry, List.take_zero, List.reverse_nil, lcsList]
  | succ i ihi =>
    intro hi j
    have hia : i < a.length := hi
    have hra : (a.take (i + 1)).reverse = a[i] :: (a.take i).reverse := by
      rw [List.take_succ, List.getElem?_eq_getElem hia]
      simp
    induction j with
    | zero =>
      intro _
      rw [lcsEntry, List.take_zero, List.reverse_nil, hra, lcsList]
    | succ j ihj =>
      intro hj
      have hjb : j < b.length := hj
      have hrb : (b.take (j + 1)).reverse = b[j] :: (b.take j).reverse := by
        rw [List.take_succ, List.getElem?_eq_getElem hjb]
        simp
      rw [hra, hrb, lcsEntry, lcsList,
        List.getD_eq_getElem a default hia, List.getD_eq_getElem b default hjb]
      by_cases heq : a[i] = b[j]
      · rw [if_pos heq, if_pos heq, ihi (le_of_lt hia) j (le_of_lt hjb)]
      · rw [if_neg heq, if_neg heq, ihi (le_of_lt hia) (j + 1) hj, hrb,
          ihj (le_of_lt hjb), hra]

/-- Claim C6: the DP table returned by `computeLCS a b` has
`(a.length+1) × (b.length+1)` entries, its bottom-right entry
`dp[a.length][b.length]` is the true longest-common-subsequence length of
`a` and `b`, and `computeLCS [] [] = [[0]]`. -/
theorem c6_computeLCS_table_correct (a b : List (List Char)) :
    (computeLCS a b).length = a.length + 1 ∧
    (∀ row ∈ computeLCS a b, row.length = b.length + 1) ∧
    isLCSLength a b (((computeLCS a b).getD a.length []).getD b.length 0) ∧
    computeLCS ([] : List (List Char)) [] = [[0]] := by
  refine ⟨by simp [computeLCS], ?_, ?_, ?_⟩
  · intro row hrow
    unfold computeLCS at hrow
    obtain ⟨i, _, rfl⟩ := List.mem_map.mp hrow
    simp
  · have h1 : (computeLCS a b).getD a.length [] =
        (List.range (b.length + 1)).map fun j => lcsEntry a b a.length j := by
      unfold computeLCS
      rw [List.getD_eq_getElem _ _ (by simp)]
      simp
    have hv : ((computeLCS a b).getD a.length []).getD b.length 0 =
        lcsEntry a b a.length b.length := by
      rw [h1, List.getD_eq_getElem _ _ (by simp)]
      simp
    rw [hv, lcsEntry_bridge a b a.length le_rfl b.length le_rfl,
      List.take_length, List.take_length]
    constructor
    · obtain ⟨s, h1, h2, h3⟩ := lcsList_exists a.reverse b.reverse
      refine ⟨s.reverse, ?_, ?_, by simpa using h3⟩
      · have h := h1.reverse
        rwa [List.reverse_reverse] at h
      · have h := h2.reverse
        rwa [List.reverse_reverse] at h
    · intro s h1 h2
      have h := lcsList_le a.reverse b.reverse s.reverse h1.reverse h2.reverse
      simpa using h
  · simp [computeLCS, List.range_succ, lcsEntry]

/-! ### Diff scorer bounds and degenerate cases (claim C7) -/

theorem jsRound_nonneg {α : Type} [LinearOrderedField α] [FloorRing α] {x : α}
    (h : 0 ≤ x) : 0 ≤ jsRound x := by
  unfold jsRound
  refine Int.le_floor.mpr ?_
  push_cast
  linarith

theorem jsRound_le_of_le {α : Type} [LinearOrderedField α] [FloorRing α] {x : α}
    {n : ℤ} (h : x ≤ n) : jsRound x ≤ n := by
  unfold jsRound
  have h2 : ⌊x + 1 / 2⌋ < n + 1 := by
    refine Int.floor_lt.mpr ?_
    push_cast
    linarith
  omega

theorem splitOnSpace_length_pos (l : List Char) : 1 ≤ (splitOnSpace l).length := by
  cases l with
  | nil => rw [splitOnSpace]; exact le_refl _
  | cons c rest =>
    rw [splitOnSpace]
    by_cases hc : c = ' '
    · simp [hc]
    · simp [hc]

theorem buildDiffWalk_count (o s : List (List Char)) (dp : List (List ℕ)) :
    ∀ i j,
      ((buildDiffWalk o s dp i j).filter fun w => w.status = WordStatus.correct).length +
      ((buildDiffWalk o s dp i j).filter fun w => w.status = WordStatus.missing).length
        = i := by
  intro i
  induction i with
  | zero =>
    intro j
    induction j with
    | zero =>
      rw [buildDiffWalk]
      rfl
    | succ j ihj =>
      rw [buildDiffWalk]
      simp only [List.filter_cons, decide_eq_true_eq]
      rw [if_neg (by simp), if_neg (by simp)]
      exact ihj
  | succ i ihi =>
    intro j
    induction j with
    | zero =>
      rw [buildDiffWalk]
      simp only [List.filter_cons, decide_eq_true_eq]
      rw [if_neg (by simp), if_pos trivial]
      simp only [List.length_cons]
      have h := ihi 0
      omega
    | succ j ihj =>
      rw [buildDiffWalk]
      by_cases h1 : o.getD i [] = s.getD j []
      · rw [if_pos h1]
        simp only [List.filter_cons, decide_eq_true_eq]
        rw [if_pos trivial, if_neg (by simp)]
        simp only [List.length_cons]
        have h := ihi j
        omega
      · rw [if_neg h1]
        by_cases h2 : (dp.getD i []).getD (j + 1) 0 ≤ (dp.getD (i + 1) []).getD j 0
        · rw [if_pos h2]
          simp only [List.filter_cons, decide_eq_true_eq]
          rw [if_neg (by simp), if_neg (by simp)]
          exact ihj
        · rw [if_neg h2]
          simp only [List.filter_cons, decide_eq_true_eq]
          rw [if_neg (by simp), if_pos trivial]
          simp only [List.length_cons]
          have h := ihi (j + 1)
          omega

theorem buildDiff_correct_le (original spoken : List (List Char))
    (dp : List (List ℕ)) :
    ((buildDiff original spoken dp).filter fun w =>
      w.status = WordStatus.correct).length ≤ original.length := by
  unfold buildDiff
  rw [List.filter_reverse, List.length_reverse]
  have h := buildDiffWalk_count original spoken dp original.length spoken.length
  omega

/-- Claim C7: `compareTexts` always returns an integer score in `[0, 100]`;
when the normalized expected text is empty every spoken word is tagged
`extra` and the score is 100 exactly when the spoken text is also empty;
when the spoken text is empty and the expected text is not, every expected
word is tagged `missing` and the score is 0. -/
theorem c7_compareTexts_score (original spoken : List Char) :
    (0 ≤ (compareTexts original spoken).score ∧
      (compareTexts original spoken).score ≤ 100) ∧
    (normalizeText original = [] →
      (∀ w ∈ (compareTexts original spoken).words, w.status = WordStatus.extra) ∧
      (compareTexts original spoken).score =
        (if normalizeText spoken = [] then 100 else 0)) ∧
    (normalizeText spoken = [] → normalizeText original ≠ [] →
      (∀ w ∈ (compareTexts original spoken).words, w.status = WordStatus.missing) ∧
      (compareTexts original spoken).score = 0) := by
  by_cases ho : normalizeText original = []
  · by_cases hs : normalizeText spoken = []
    · have hct : compareTexts original spoken = ⟨[], 100⟩ := by
        simp only [compareTexts]
        rw [if_pos ho, if_pos hs]
        rfl
      rw [hct]
      refine ⟨⟨by norm_num, by norm_num⟩, ?_, ?_⟩
      · intro _
        exact ⟨fun w hw => absurd hw (List.not_mem_nil w), by rw [if_pos hs]⟩
      · intro _ hno
        exact absurd ho hno
    · have hct : compareTexts original spoken =
          ⟨(splitOnSpace (normalizeText spoken)).map fun w => ⟨w, .extra⟩,
            if (splitOnSpace (normalizeText spoken)).length = 0 then 100 else 0⟩ := by
        simp only [compareTexts]
        rw [if_pos ho, if_neg hs]
      have hlen : ¬(splitOnSpace (normalizeText spoken)).length = 0 := by
        have h := splitOnSpace_length_pos (normalizeText spoken)
        omega
      rw [hct]
      refine ⟨⟨by rw [if_neg hlen], by rw [if_neg hlen]; norm_num⟩, ?_, ?_⟩
      · intro _
        constructor
        · intro w hw
          obtain ⟨x, _, rfl⟩ := List.mem_map.mp hw
          rfl
        · rw [if_neg hs, if_neg hlen]
      · intro h
        exact absurd h hs
  · by_cases hs : normalizeText spoken = []
    · have hct : compareTexts original spoken =
          ⟨(splitOnSpace (normalizeText original)).map fun w => ⟨w, .missing⟩, 0⟩ := by
        simp only [compareTexts]
        rw [if_neg ho, if_pos hs]
        rfl
      rw [hct]
      refine ⟨⟨le_refl 0, by norm_num⟩, fun h => absurd h ho, ?_⟩
      intro _ _
      constructor
      · intro w hw
        obtain ⟨x, _, rfl⟩ := List.mem_map.mp hw
        rfl
      · rfl
    · have hswp : 1 ≤ (splitOnSpace (normalizeText spoken)).length :=
        splitOnSpace_length_pos _
      have howp : 1 ≤ (splitOnSpace (normalizeText original)).length :=
        splitOnSpace_length_pos _
      have hct : compareTexts original spoken =
          ⟨buildDiff (splitOnSpace (normalizeText original))
              (splitOnSpace (normalizeText spoken))
              (computeLCS (splitOnSpace (normalizeText original))
                (splitOnSpace (normalizeText spoken))),
            jsRound ((((buildDiff (splitOnSpace (normalizeText original))
                (splitOnSpace (normalizeText spoken))
                (computeLCS (splitOnSpace (normalizeText original))
                  (splitOnSpace (normalizeText spoken)))).filter fun w =>
                w.status = WordStatus.correct).length : ℚ) /
              (splitOnSpace (normalizeText original)).length * 100)⟩ := by
        simp only [compareTexts]
        rw [if_neg ho, if_neg hs, if_neg (by omega)]
      rw [hct]
      have hcle := buildDiff_correct_le (splitOnSpace (normalizeText original))
        (splitOnSpace (normalizeText spoken))
        (computeLCS (splitOnSpace (normalizeText original))
          (splitOnSpace (normalizeText spoken)))
      have hm0 : (0 : ℚ) < ((splitOnSpace (normalizeText original)).length : ℚ) := by
        exact_mod_cast Nat.lt_of_lt_of_le Nat.zero_lt_one howp
      have hdiv : ((((buildDiff (splitOnSpace (normalizeText original))
            (splitOnSpace (normalizeText spoken))
            (computeLCS (splitOnSpace (normalizeText original))
              (splitOnSpace (normalizeText spoken)))).filter fun w =>
            w.status = WordStatus.correct).length : ℚ) /
          (splitOnSpace (normalizeText original)).length) ≤ 1 := by
        rw [div_le_one hm0]
        exact_mod_cast hcle
      have hq0 : (0 : ℚ) ≤ ((((buildDiff (splitOnSpace (normalizeText original))
            (splitOnSpace (normalizeText spoken))
            (computeLCS (splitOnSpace (normalizeText original))
              (splitOnSpace (normalizeText spoken)))).filter fun w =>
            w.status = WordStatus.correct).length : ℚ) /
          (splitOnSpace (normalizeText original)).length * 100) := by
        positivity
      have hq100 : ((((buildDiff (splitOnSpace (normalizeText original))
            (splitOnSpace (normalizeText spoken))
            (computeLCS (splitOnSpace (normalizeText original))
              (splitOnSpace (normalizeText spoken)))).filter fun w =>
            w.status = WordStatus.correct).length : ℚ) /
          (splitOnSpace (normalizeText original)).length * 100) ≤ ((100 : ℤ) : ℚ) := by
        push_cast
        linarith [hdiv]
      exact ⟨⟨jsRound_nonneg hq0, jsRound_le_of_le hq100⟩,
        fun h => absurd h ho, fun h => absurd h hs⟩

theorem c7_compareTexts_witness :
    normalizeText ([] : List Char) = [] ∧ normalizeText ['h', 'i'] ≠ [] ∧
    ((∀ w ∈ (compareTexts ['h', 'i'] []).words, w.status = WordStatus.missing) ∧
      (compareTexts ['h', 'i'] []).score = 0) := by
  have h1 : normalizeText ([] : List Char) = [] := by
    simp [normalizeText, collapseWs, trimWs]
  have h2 : normalizeText ['h', 'i'] ≠ [] := by
    simp [normalizeText, collapseWs, trimWs, isSpaceChar, keepChar, isWordChar,
      dashToSpace, Char.toLower, List.dropWhile]
  exact ⟨h1, h2, (c7_compareTexts_score ['h', 'i'] []).2.2 h1 h2⟩

/-! ### Viterbi alignment structure (claim C1) -/

theorem bestTrans_snd_le (prevRow : ℕ → ℚ) (tokens : List ℕ) (s : ℕ) :
    (bestTrans prevRow tokens s).2 ≤ s := by
  unfold bestTrans
  dsimp only
  split_ifs <;> simp

theorem vitPath_length (lp : ℕ → ℕ → ℚ) (tokens : List ℕ) :
    ∀ t s, (vitPath lp tokens t s).length = t + 1 := by
  intro t
  induction t with
  | zero => intro s; rfl
  | succ t ih =>
    intro s
    rw [vitPath, List.length_append, ih]
    rfl

theorem vitPath_chain (lp : ℕ → ℕ → ℚ) (tokens : List ℕ) :
    ∀ t s, List.Chain' (· ≤ ·) (vitPath lp tokens t s) ∧
      (vitPath lp tokens t s).getLast? = some s := by
  intro t
  induction t with
  | zero =>
    intro s
    exact ⟨List.chain'_singleton s, rfl⟩
  | succ t ih =>
    intro s
    obtain ⟨hc, hl⟩ := ih ((bestTrans (vitRow lp tokens t) tokens s).2)
    constructor
    · rw [vitPath]
      refine List.chain'_append.mpr ⟨hc, List.chain'_singleton _, ?_⟩
      intro x hx y hy
      rw [hl] at hx
      simp only [Option.mem_def, Option.some.injEq] at hx
      simp only [List.head?_cons, Option.mem_def, Option.some.injEq] at hy
      subst hx
      subst hy
      exact bestTrans_snd_le _ _ _
    · rw [vitPath, List.getLast?_concat]

theorem expTok_nil (s : ℕ) : expTok [] s = BLANK_IDX := by
  unfold expTok expandCTC
  cases s with
  | zero => rfl
  | succ n =>
    show List.getD [BLANK_IDX] (n + 1) BLANK_IDX = BLANK_IDX
    rw [List.getD_cons_succ]
    cases n <;> rfl

theorem expTok_even (tokens : List ℕ) : ∀ k, expTok tokens (2 * k) = BLANK_IDX := by
  induction tokens with
  | nil => intro k; exact expTok_nil _
  | cons t ts ih =>
    intro k
    cases k with
    | zero => rfl
    | succ k =>
      show expTok (t :: ts) (2 * k + 2) = BLANK_IDX
      unfold expTok expandCTC
      rw [List.foldr_cons]
      show List.getD (BLANK_IDX :: t :: expandCTC ts) (2 * k + 1 + 1) BLANK_IDX = _
      rw [List.getD_cons_succ, List.getD_cons_succ]
      exact ih k

theorem expTok_odd (tokens : List ℕ) :
    ∀ k, expTok tokens (2 * k + 1) = tokens.getD k BLANK_IDX := by
  induction tokens with
  | nil =>
    intro k
    rw [expTok_nil]
    rfl
  | cons t ts ih =>
    intro k
    cases k with
    | zero => rfl
    | succ k =>
      show expTok (t :: ts) (2 * k + 3) = _
      unfold expTok expandCTC
      rw [List.foldr_cons]
      show List.getD (BLANK_IDX :: t :: expandCTC ts) (2 * k + 1 + 1 + 1) BLANK_IDX = _
      rw [List.getD_cons_succ, List.getD_cons_succ, List.getD_cons_succ]
      exact ih k

theorem expTok_ne_blank {tokens : List ℕ} {s : ℕ}
    (h : expTok tokens s ≠ BLANK_IDX) :
    ∃ k, s = 2 * k + 1 ∧ k < tokens.length ∧
      expTok tokens s = tokens.getD k BLANK_IDX := by
  rcases Nat.even_or_odd s with ⟨k, hk⟩ | ⟨k, hk⟩
  · exfalso
    apply h
    have hs : s = 2 * k := by omega
    rw [hs]
    exact expTok_even tokens k
  · refine ⟨k, by omega, ?_, ?_⟩
    · by_contra hlen
      apply h
      have hs : s = 2 * k + 1 := by omega
      rw [hs, expTok_odd tokens k]
      exact List.getD_eq_default _ _ (by omega)
    · have hs : s = 2 * k + 1 := by omega
      rw [hs]
      exact expTok_odd tokens k

theorem drop_sublist_drop_le {α : Type} (l : List α) {n m : ℕ} (h : n ≤ m) :
    (l.drop m).Sublist (l.drop n) := by
  have hm : m = n + (m - n) := by omega
  rw [hm, ← List.drop_drop]
  exact List.drop_sublist _ _

theorem ctcCollapse_singleton (x : ℕ) :
    ctcCollapse [x] = if x = BLANK_IDX then [] else [x] := by
  unfold ctcCollapse collapseDupTokens
  by_cases h : x = BLANK_IDX
  · rw [if_pos h]
    simp [h]
  · rw [if_neg h]
    simp [h]

theorem ctcCollapse_cons_cons_eq {x y : ℕ} (r : List ℕ) (h : x = y) :
    ctcCollapse (x :: y :: r) = ctcCollapse (y :: r) := by
  unfold ctcCollapse collapseDupTokens
  rw [if_pos h]
  cases r with
  | nil => rfl
  | cons z zs => rfl

theorem ctcCollapse_cons_cons_blank {x y : ℕ} (r : List ℕ) (h : x ≠ y)
    (hb : x = BLANK_IDX) : ctcCollapse (x :: y :: r) = ctcCollapse (y :: r) := by
  unfold ctcCollapse collapseDupTokens
  rw [if_neg h]
  rw [List.filter_cons]
  rw [if_neg (by simp [hb])]
  cases r with
  | nil => rfl
  | cons z zs => rfl

theorem ctcCollapse_cons_cons_tok {x y : ℕ} (r : List ℕ) (h : x ≠ y)
    (hb : x ≠ BLANK_IDX) :
    ctcCollapse (x :: y :: r) = x :: ctcCollapse (y :: r) := by
  unfold ctcCollapse collapseDupTokens
  rw [if_neg h]
  rw [List.filter_cons]
  rw [if_pos (by simp [hb])]
  cases r with
  | nil => rfl
  | cons z zs => rfl

theorem collapse_path_sublist (tokens : List ℕ) :
    ∀ (p : List ℕ) (a : ℕ), List.Chain (· ≤ ·) a p →
      (ctcCollapse ((a :: p).map (expTok tokens))).Sublist
        (tokens.drop (a / 2)) := by
  intro p
  induction p with
  | nil =>
    intro a _
    simp only [List.map_cons, List.map_nil]
    by_cases hb : expTok tokens a = BLANK_IDX
    · rw [ctcCollapse_singleton, if_pos hb]
      exact List.nil_sublist _
    · obtain ⟨k, hk1, hk2, hk3⟩ := expTok_ne_blank hb
      have ha2 : a / 2 = k := by omega
      rw [ctcCollapse_singleton, if_neg hb, ha2, hk3,
        List.getD_eq_getElem _ _ hk2, List.drop_eq_getElem_cons hk2]
      exact List.cons_sublist_cons.mpr (List.nil_sublist _)
  | cons b p ih =>
    intro a hchain
    rcases List.chain_cons.mp hchain with ⟨hab, hbp⟩
    have hrest := ih b hbp
    simp only [List.map_cons] at hrest ⊢
    by_cases heq : expTok tokens a = expTok tokens b
    · rw [ctcCollapse_cons_cons_eq _ heq]
      exact hrest.trans (drop_sublist_drop_le tokens (Nat.div_le_div_right hab))
    · by_cases hb : expTok tokens a = BLANK_IDX
      · rw [ctcCollapse_cons_cons_blank _ heq hb]
        exact hrest.trans (drop_sublist_drop_le tokens (Nat.div_le_div_right hab))
      · obtain ⟨k, hk1, hk2, hk3⟩ := expTok_ne_blank hb
        have ha2 : a / 2 = k := by omega
        have hbge : 2 * k + 2 ≤ b := by
          rcases Nat.eq_or_lt_of_le hab with he | hlt
          · exact absurd (congrArg (expTok tokens) he) heq
          · omega
        have hdiv : k + 1 ≤ b / 2 := by omega
        rw [ctcCollapse_cons_cons_tok _ heq hb, ha2, hk3,
          List.getD_eq_getElem _ _ hk2, List.drop_eq_getElem_cons hk2]
        exact List.cons_sublist_cons.mpr
          (hrest.trans (drop_sublist_drop_le tokens hdiv))

/-- Claim C1: for every frame log-probability matrix with `T ≥ 1` frames and
every expected token sequence, `viterbiAlign` returns an alignment of length
exactly `T`; collapsing consecutive duplicates and removing blanks from the
alignment yields a subsequence of the expected token sequence; and for an
empty token sequence the alignment is all blank frames. -/
theorem c1_viterbiAlign_structure (T : ℕ) (lp : ℕ → ℕ → ℚ) (tokens : List ℕ)
    (hT : 1 ≤ T) :
    (viterbiAlign T lp tokens).1.length = T ∧
    ((ctcCollapse (viterbiAlign T lp tokens).1).Sublist tokens) ∧
    (tokens = [] →
      (viterbiAlign T lp tokens).1 = List.replicate T BLANK_IDX) := by
  have hlen : (viterbiAlign T lp tokens).1.length = T := by
    unfold viterbiAlign
    dsimp only
    rw [List.length_map, vitPath_length]
    omega
  refine ⟨hlen, ?_, ?_⟩
  · unfold viterbiAlign
    dsimp only
    obtain ⟨hc, _⟩ := vitPath_chain lp tokens (T - 1) (vitBestEnd lp tokens T)
    cases hp : vitPath lp tokens (T - 1) (vitBestEnd lp tokens T) with
    | nil =>
      exact List.nil_sublist _
    | cons a rest =>
      rw [hp] at hc
      have hchain : List.Chain (· ≤ ·) a rest := hc
      exact (collapse_path_sublist tokens rest a hchain).trans
        (List.drop_sublist _ _)
  · intro htok
    subst htok
    refine List.eq_replicate_iff.mpr ⟨hlen, ?_⟩
    intro x hx
    unfold viterbiAlign at hx
    dsimp only at hx
    obtain ⟨sν, _, rfl⟩ := List.mem_map.mp hx
    exact expTok_nil _

theorem c1_viterbiAlign_witness :
    1 ≤ 1 ∧
    ((viterbiAlign 1 (fun _ _ => (0 : ℚ)) []).1.length = 1 ∧
    ((ctcCollapse (viterbiAlign 1 (fun _ _ => (0 : ℚ)) []).1).Sublist []) ∧
    (([] : List ℕ) = [] →
      (viterbiAlign 1 (fun _ _ => (0 : ℚ)) []).1 = List.replicate 1 BLANK_IDX)) :=
  ⟨le_refl 1, c1_viterbiAlign_structure 1 (fun _ _ => (0 : ℚ)) [] (le_refl 1)⟩

/-! ### L1 adjuster properties (claims C3, C4, C10) -/

theorem mapIdx_length {α β : Type} (f : ℕ → α → β) :
    ∀ (k : ℕ) (l : List α), (mapIdx f k l).length = l.length := by
  intro k l
  induction l generalizing k with
  | nil => rfl
  | cons a rest ih =>
    rw [mapIdx, List.length_cons, List.length_cons, ih]

theorem mapIdx_getD {α β : Type} (f : ℕ → α → β) :
    ∀ (l : List α) (k i : ℕ) (d : α) (d2 : β), i < l.length →
      (mapIdx f k l).getD i d2 = f (k + i) (l.getD i d) := by
  intro l
  induction l with
  | nil =>
    intro k i d d2 h
    simp at h
  | cons a rest ih =>
    intro k i d d2 h
    cases i with
    | zero =>
      rw [mapIdx, List.getD_cons_zero, List.getD_cons_zero, Nat.add_zero]
    | succ i =>
      rw [mapIdx, List.getD_cons_succ, List.getD_cons_succ,
        show k + (i + 1) = k + 1 + i from by omega]
      exact ih (k + 1) i d d2 (by simpa using h)

theorem adjustPhoneme_of_threshold {phonemes : List String} {confirmed : Bool}
    {idx : ℕ} {ph : PhonemeScore ℚ} (h : (0.45 : ℚ) ≤ ph.score) :
    adjustPhoneme phonemes confirmed idx ph = ph := by
  simp only [adjustPhoneme]
  by_cases ha : phonemes.getD idx "" = ""
  · rw [if_pos ha]
  · rw [if_neg ha, if_pos h]

theorem adjustPhoneme_score_cases (phonemes : List String) (confirmed : Bool)
    (idx : ℕ) (ph : PhonemeScore ℚ) :
    (adjustPhoneme phonemes confirmed idx ph).score = ph.score ∨
    (adjustPhoneme phonemes confirmed idx ph).score ≤ 0.85 := by
  simp only [adjustPhoneme]
  by_cases ha : phonemes.getD idx "" = ""
  · rw [if_pos ha]
    exact Or.inl rfl
  · rw [if_neg ha]
    by_cases ht : (0.45 : ℚ) ≤ ph.score
    · rw [if_pos ht]
      exact Or.inl rfl
    · rw [if_neg ht]
      cases hC : BR_CONFUSION.lookup (phonemes.getD idx "") with
      | none =>
        dsimp only
        split
        · split
          · exact Or.inl rfl
          · exact Or.inr (min_le_left _ _)
        · split
          · exact Or.inl rfl
          · exact Or.inr (min_le_left _ _)
      | some confusion =>
        dsimp only
        cases hctx : confusion.context with
        | none =>
          dsimp only [tierAdjust]
          exact Or.inr (min_le_left _ _)
        | some ctx =>
          dsimp only
          split
          · split
            · exact Or.inl rfl
            · exact Or.inr (min_le_left _ _)
          · dsimp only [tierAdjust]
            exact Or.inr (min_le_left _ _)

theorem mapIdx_eq_self {α : Type} (f : ℕ → α → α) (h : ∀ i a, f i a = a) :
    ∀ (k : ℕ) (l : List α), mapIdx f k l = l := by
  intro k l
  induction l generalizing k with
  | nil => rfl
  | cons a rest ih => rw [mapIdx, h, ih]

theorem applyL1_words_length (dict : List Char → Option (List Char))
    (result : PronunciationResult ℚ) :
    (applyL1Scoring dict result "pt-BR").words.length = result.words.length := by
  simp only [applyL1Scoring]
  rw [if_neg (by simp)]
  exact mapIdx_length _ _ _

theorem applyL1_words_getD (dict : List Char → Option (List Char))
    (result : PronunciationResult ℚ) (i : ℕ) (hi : i < result.words.length) :
    (applyL1Scoring dict result "pt-BR").words.getD i default =
      adjustWord dict (l1DecodedWords result) i
        (result.words.getD i default) := by
  simp only [applyL1Scoring]
  rw [if_neg (by simp)]
  dsimp only
  rw [mapIdx_getD _ result.words 0 i default default hi, Nat.zero_add]

theorem adjustWord_phonemes_getD (dict : List Char → Option (List Char))
    (dws : List (List Char)) (wi : ℕ) (w : WordPronunciationResult ℚ) (j : ℕ)
    (hj : j < w.phonemes.length) :
    ∃ conf : Bool, (adjustWord dict dws wi w).phonemes.getD j default =
      adjustPhoneme (getPhonemes dict w.word) conf j
        (w.phonemes.getD j default) := by
  refine ⟨isSubstitutionConfirmed w.word ((dws.drop (wi - 1)).take
    (min dws.length (wi + 2) - (wi - 1))), ?_⟩
  simp only [adjustWord]
  rw [mapIdx_getD _ w.phonemes 0 j default default hj, Nat.zero_add]

theorem adjustWord_phonemes_length (dict : List Char → Option (List Char))
    (dws : List (List Char)) (wi : ℕ) (w : WordPronunciationResult ℚ) :
    (adjustWord dict dws wi w).phonemes.length = w.phonemes.length := by
  simp only [adjustWord]
  exact mapIdx_length _ _ _

theorem adjustPhoneme_nil (confirmed : Bool) (idx : ℕ) (ph : PhonemeScore ℚ) :
    adjustPhoneme [] confirmed idx ph = ph := by
  have h : ([] : List String).getD idx "" = "" := by cases idx <;> rfl
  simp [adjustPhoneme, h]

/-- Counterexample to claim C3 as stated: for the input `c3Input`, whose
single phoneme starts at score 0.9 ∈ [0,1], `applyL1Scoring` under
`"pt-BR"` returns that phoneme still scoring 0.9, which exceeds 0.85 —
because phonemes at or above the 0.45 threshold are returned untouched. -/
theorem c3_cap_counterexample :
    (0.85 : ℚ) <
      (((applyL1Scoring (fun _ => none) c3Input "pt-BR").words.getD 0
        default).phonemes.getD 0 default).score := by
  rw [applyL1_words_getD (fun _ => none) c3Input 0 (by norm_num [c3Input])]
  obtain ⟨conf, hw⟩ := adjustWord_phonemes_getD (fun _ => none)
    (l1DecodedWords c3Input) 0 (c3Input.words.getD 0 default) 0
    (by norm_num [c3Input])
  rw [hw, adjustPhoneme_of_threshold (by norm_num [c3Input])]
  norm_num [c3Input]

/-- Claim C3, amended: after `applyL1Scoring` under `"pt-BR"`, every phoneme
either keeps its input score unchanged (in particular phonemes already at or
above the 0.45 threshold, which may exceed 0.85), or — whenever the adjuster
changed it — its score is at most the 0.85 cap, regardless of starting score
and of the 1.5× confirmation multiplier. -/
theorem c3_l1_cap_amended (dict : List Char → Option (List Char))
    (result : PronunciationResult ℚ) (i j : ℕ) :
    (((applyL1Scoring dict result "pt-BR").words.getD i default).phonemes.getD
        j default).score =
      ((result.words.getD i default).phonemes.getD j default).score ∨
    (((applyL1Scoring dict result "pt-BR").words.getD i default).phonemes.getD
        j default).score ≤ 0.85 := by
  by_cases hi : i < result.words.length
  · rw [applyL1_words_getD dict result i hi]
    by_cases hj : j < (result.words.getD i default).phonemes.length
    · obtain ⟨conf, hw⟩ := adjustWord_phonemes_getD dict
        (l1DecodedWords result) i (result.words.getD i default) j hj
      rw [hw]
      exact adjustPhoneme_score_cases _ conf j _
    · have hlen := adjustWord_phonemes_length dict (l1DecodedWords result) i
        (result.words.getD i default)
      have h1 : (adjustWord dict (l1DecodedWords result) i
          (result.words.getD i default)).phonemes.length ≤ j := by omega
      have h2 : (result.words.getD i default).phonemes.length ≤ j := by omega
      rw [List.getD_eq_default _ _ h1, List.getD_eq_default _ _ h2]
      exact Or.inl rfl
  · have hlen := applyL1_words_length dict result
    have h1 : (applyL1Scoring dict result "pt-BR").words.length ≤ i := by omega
    have h2 : result.words.length ≤ i := by omega
    rw [List.getD_eq_default _ _ h1, List.getD_eq_default _ _ h2]
    exact Or.inl rfl

/-- Claim C4: every phoneme whose input score is at or above 0.45 is returned
by `applyL1Scoring` under `"pt-BR"` completely unchanged — same score, and
no `l1Feedback` or `originalScore` attached. -/
theorem c4_threshold_untouched (dict : List Char → Option (List Char))
    (result : PronunciationResult ℚ) (i j : ℕ)
    (hi : i < result.words.length)
    (hj : j < (result.words.getD i default).phonemes.length)
    (hs : (0.45 : ℚ) ≤
      ((result.words.getD i default).phonemes.getD j default).score) :
    ((applyL1Scoring dict result "pt-BR").words.getD i default).phonemes.getD
        j default = (result.words.getD i default).phonemes.getD j default ∧
    (((result.words.getD i default).phonemes.getD j default).l1Feedback =
        none →
      (((applyL1Scoring dict result "pt-BR").words.getD i
        default).phonemes.getD j default).l1Feedback = none) ∧
    (((result.words.getD i default).phonemes.getD j default).originalScore =
        none →
      (((applyL1Scoring dict result "pt-BR").words.getD i
        default).phonemes.getD j default).originalScore = none) := by
  have heq : ((applyL1Scoring dict result "pt-BR").words.getD i
      default).phonemes.getD j default =
      (result.words.getD i default).phonemes.getD j default := by
    rw [applyL1_words_getD dict result i hi]
    obtain ⟨conf, hw⟩ := adjustWord_phonemes_getD dict (l1DecodedWords result)
      i (result.words.getD i default) j hj
    rw [hw, adjustPhoneme_of_threshold hs]
  refine ⟨heq, fun h => ?_, fun h => ?_⟩
  · rw [heq]
    exact h
  · rw [heq]
    exact h

theorem c4_threshold_witness :
    0 < c3Input.words.length ∧
    0 < (c3Input.words.getD 0 default).phonemes.length ∧
    (0.45 : ℚ) ≤ ((c3Input.words.getD 0 default).phonemes.getD 0
      default).score ∧
    ((applyL1Scoring (fun _ => none) c3Input "pt-BR").words.getD 0
      default).phonemes.getD 0 default =
      (c3Input.words.getD 0 default).phonemes.getD 0 default := by
  have h1 : 0 < c3Input.words.length := by norm_num [c3Input]
  have h2 : 0 < (c3Input.words.getD 0 default).phonemes.length := by
    norm_num [c3Input]
  have h3 : (0.45 : ℚ) ≤ ((c3Input.words.getD 0 default).phonemes.getD 0
      default).score := by
    norm_num [c3Input]
  exact ⟨h1, h2, h3,
    (c4_threshold_untouched (fun _ => none) c3Input 0 0 h1 h2 h3).1⟩

/-- Claim C10: under `"pt-BR"`, `applyL1Scoring` attaches `originalScore` to
every word and recomputes every word's score as `round(100 × mean of the
returned phoneme scores)` and the overall score as the rounded mean of word
scores — even for words with no phoneme below the 0.45 threshold, so the
returned scores can differ from the input's although every phoneme is left
unchanged (witnessed concretely by `c10Input`: phonemes untouched, word score
90 → 55). -/
theorem c10_l1_rescores_all_words (dict : List Char → Option (List Char))
    (result : PronunciationResult ℚ) :
    (applyL1Scoring dict result "pt-BR").words.length = result.words.length ∧
    (∀ i, i < result.words.length →
      ((applyL1Scoring dict result "pt-BR").words.getD i
        default).originalScore = some (result.words.getD i default).score ∧
      ((applyL1Scoring dict result "pt-BR").words.getD i default).score =
        jsRound (avgPhonemeScore
          ((applyL1Scoring dict result "pt-BR").words.getD i
            default).phonemes * 100)) ∧
    (applyL1Scoring dict result "pt-BR").originalOverallScore =
      some result.overallScore ∧
    (applyL1Scoring dict result "pt-BR").overallScore =
      (if result.words.length = 0 then 0
       else jsRound (((((applyL1Scoring dict result "pt-BR").words.map
         fun w => w.score).sum : ℤ) : ℚ) / result.words.length)) ∧
    ((applyL1Scoring (fun _ => none) c10Input "pt-BR").words.getD 0
      default).phonemes = (c10Input.words.getD 0 default).phonemes ∧
    ((applyL1Scoring (fun _ => none) c10Input "pt-BR").words.getD 0
      default).score = 55 ∧
    (c10Input.words.getD 0 default).score = 90 := by
  refine ⟨applyL1_words_length dict result, ?_, ?_, ?_, ?_, ?_, ?_⟩
  · intro i hi
    rw [applyL1_words_getD dict result i hi]
    exact ⟨rfl, rfl⟩
  · simp only [applyL1Scoring]
    rw [if_neg (by simp)]
  · by_cases h0 : result.words.length = 0
    · rw [if_pos h0]
      simp only [applyL1Scoring]
      rw [if_neg (by simp)]
      dsimp only
      rw [if_neg (by rw [mapIdx_length]; omega)]
    · rw [if_neg h0]
      simp only [applyL1Scoring]
      rw [if_neg (by simp)]
      dsimp only
      rw [if_pos (by rw [mapIdx_length]; omega), mapIdx_length]
  · rw [applyL1_words_getD (fun _ => none) c10Input 0 (by norm_num [c10Input])]
    simp only [adjustWord]
    have hget : getPhonemes (fun _ => none)
        (c10Input.words.getD 0 default).word = [] := rfl
    rw [hget, mapIdx_eq_self _ (fun i a => adjustPhoneme_nil _ i a)]
  · rw [applyL1_words_getD (fun _ => none) c10Input 0 (by norm_num [c10Input])]
    simp only [adjustWord]
    have hget : getPhonemes (fun _ => none)
        (c10Input.words.getD 0 default).word = [] := rfl
    rw [hget, mapIdx_eq_self _ (fun i a => adjustPhoneme_nil _ i a)]
    norm_num [c10Input, avgPhonemeScore, jsRound]
  · norm_num [c10Input]

theorem c10_l1_witness :
    0 < c10Input.words.length ∧
    (((applyL1Scoring (fun _ => none) c10Input "pt-BR").words.getD 0
      default).originalScore = some (c10Input.words.getD 0 default).score ∧
    ((applyL1Scoring (fun _ => none) c10Input "pt-BR").words.getD 0
      default).score = jsRound (avgPhonemeScore
        ((applyL1Scoring (fun _ => none) c10Input "pt-BR").words.getD 0
          default).phonemes * 100)) := by
  have h0 : 0 < c10Input.words.length := by norm_num [c10Input]
  exact ⟨h0, (c10_l1_rescores_all_words (fun _ => none) c10Input).2.1 0 h0⟩

/-! ### Speech-rate estimator bounds (claim C8) -/

/-- Claim C8: `estimateSpeechRate` always returns a non-negative value, and
it returns exactly 150 whenever the input yields fewer than 5 analysis
frames — in particular for empty and for very short audio. (In this
real-number model every value is finite by construction.) -/
theorem c8_estimateSpeechRate_bounds (audio : List ℝ) :
    0 ≤ estimateSpeechRate audio ∧
    (erNFrames audio.length < 5 → estimateSpeechRate audio = 150) := by
  constructor
  · unfold estimateSpeechRate
    dsimp only
    split
    · norm_num
    · apply jsRound_nonneg
      positivity
  · intro h
    unfold estimateSpeechRate
    dsimp only
    rw [if_pos h]

theorem c8_estimateSpeechRate_witness :
    erNFrames ([] : List ℝ).length < 5 ∧
    estimateSpeechRate ([] : List ℝ) = 150 := by
  have h : erNFrames ([] : List ℝ).length < 5 := by
    norm_num [erNFrames]
  exact ⟨h, (c8_estimateSpeechRate_bounds []).2 h⟩

/-! ### Mel spectrogram shape (claim C5) -/

/-- Claim C5: for audio of `N` samples, `computeMelSpectrogram` produces
`numFrames = max(1, 1 + floor((N − 400) / hop))` frames with a data array of
length exactly `80 × numFrames`; for `N = 16000` under the default hop 160,
`numFrames = 98`. -/
theorem c5_computeMelSpectrogram_shape (noise : ℕ → ℝ × ℝ) (audio : List ℝ) :
    (computeMelSpectrogram noise audio).2 =
      (max 1 (1 + ⌊((audio.length : ℚ) - 400) /
        (selectHopLength audio : ℚ)⌋)).toNat ∧
    (computeMelSpectrogram noise audio).1.length =
      80 * (computeMelSpectrogram noise audio).2 ∧
    (audio.length = 16000 → selectHopLength audio = 160 →
      (computeMelSpectrogram noise audio).2 = 98) := by
  refine ⟨rfl, ?_, ?_⟩
  · unfold computeMelSpectrogram
    dsimp only
    rw [List.length_map, List.length_range]
  · intro hlen hhop
    unfold computeMelSpectrogram
    dsimp only
    rw [hlen, hhop]
    norm_num [numFramesOf]
    rfl

theorem getD_replicate_zero (n i : ℕ) :
    (List.replicate n (0 : ℝ)).getD i 0 = 0 := by
  by_cases h : i < n
  · rw [List.getD_eq_getElem _ _ (by simpa using h)]
    simp
  · rw [List.getD_eq_default _ _ (by simpa using h)]

theorem erEnergy_zero (n f : ℕ) : erEnergy (List.replicate n (0 : ℝ)) f = 0 := by
  unfold erEnergy
  rw [List.sum_eq_zero, zero_div, Real.sqrt_zero]
  intro x hx
  obtain ⟨i, _, rfl⟩ := List.mem_map.mp hx
  split
  · rw [getD_replicate_zero]
    ring
  · rfl

theorem erSmoothed_zero (n nf f : ℕ) :
    erSmoothed (List.replicate n (0 : ℝ)) nf f = 0 := by
  unfold erSmoothed
  dsimp only
  rw [List.sum_eq_zero, zero_div]
  intro x hx
  obtain ⟨i, _, rfl⟩ := List.mem_map.mp hx
  exact erEnergy_zero n i

theorem foldl_max_zero : ∀ l : List ℝ, (∀ x ∈ l, x = 0) → l.foldl max 0 = 0
  | [], _ => rfl
  | x :: t, h => by
    rw [List.foldl_cons, h x (List.mem_cons_self _ _), max_self]
    exact foldl_max_zero t fun y hy => h y (List.mem_cons_of_mem _ hy)

theorem erPeaks_zero (n nf : ℕ) : erPeaks (List.replicate n (0 : ℝ)) nf = 0 := by
  unfold erPeaks
  rw [show (List.range nf).filter _ = [] from ?_, List.length_nil]
  rw [List.filter_eq_nil_iff]
  intro f _
  simp only [decide_eq_true_eq, not_and]
  intro _ _ h3
  rw [erSmoothed_zero, erSmoothed_zero] at h3
  exact absurd h3 (lt_irrefl 0)

theorem estimateSpeechRate_replicate_zero (n : ℕ) :
    estimateSpeechRate (List.replicate n (0 : ℝ)) = 150 ∨
    estimateSpeechRate (List.replicate n (0 : ℝ)) = 0 := by
  unfold estimateSpeechRate
  dsimp only
  split
  · exact Or.inl rfl
  · refine Or.inr ?_
    rw [erPeaks_zero]
    norm_num [jsRound]

theorem selectHopLength_replicate_zero (n : ℕ) :
    selectHopLength (List.replicate n (0 : ℝ)) = 160 := by
  unfold selectHopLength
  dsimp only
  rcases estimateSpeechRate_replicate_zero n with h | h <;> rw [h] <;> norm_num

theorem c5_mel_witness :
    (List.replicate 16000 (0 : ℝ)).length = 16000 ∧
    selectHopLength (List.replicate 16000 (0 : ℝ)) = 160 ∧
    (computeMelSpectrogram (fun _ => (0, 0))
      (List.replicate 16000 (0 : ℝ))).2 = 98 := by
  have h1 : (List.replicate 16000 (0 : ℝ)).length = 16000 :=
    List.length_replicate 16000 0
  have h2 := selectHopLength_replicate_zero 16000
  exact ⟨h1, h2,
    (c5_computeMelSpectrogram_shape (fun _ => (0, 0)) _).2.2 h1 h2⟩

theorem c6_lcs_witness :
    ([['b']] : List (List Char)).Sublist [['a'], ['b']] ∧
    ([['b']] : List (List Char)).Sublist [['b']] ∧
    ([['b']] : List (List Char)).length ≤
      ((computeLCS [['a'], ['b']] [['b']]).getD 2 []).getD 1 0 :=
  ⟨by decide, by decide,
    (c6_computeLCS_table_correct [['a'], ['b']] [['b']]).2.2.1.2 [['b']]
      (by decide) (by decide)⟩

/-! ### GOP word scores (claim C2) -/

theorem logisticSquash_pos (x : ℝ) : 0 < logisticSquash x := by
  unfold logisticSquash
  positivity

theorem logisticSquash_lt_one (x : ℝ) : logisticSquash x < 1 := by
  unfold logisticSquash
  rw [div_lt_one (by positivity)]
  linarith [Real.exp_pos (-(x + 2.0) / 1.5)]

theorem computeGopScores_words_empty (rm : ℕ → Option (List Char))
    (dict : List Char → Option (List Char)) (alignment : List ℕ)
    (scores : List ℝ) (tokens : List ℕ) (text : List Char)
    (h : (gopWords text).length = 0) :
    (computeGopScores (some rm) dict alignment scores tokens text).words
      = [] := by
  unfold computeGopScores
  dsimp only
  rw [if_pos h]

theorem computeGopScores_words_main (rm : ℕ → Option (List Char))
    (dict : List Char → Option (List Char)) (alignment : List ℕ)
    (scores : List ℝ) (tokens : List ℕ) (text : List Char)
    (h : ¬(gopWords text).length = 0) :
    (computeGopScores (some rm) dict alignment scores tokens text).words =
      (List.range (min (gopWords text).length
        (getWordTokenRanges tokens rm).length)).map
        (mkWordResult dict (tokenFrameScores tokens alignment scores)
          (getWordTokenRanges tokens rm) (gopWords text)) := by
  unfold computeGopScores
  dsimp only
  rw [if_neg h]

theorem computeGopScores_overall_eq (rm : ℕ → Option (List Char))
    (dict : List Char → Option (List Char)) (alignment : List ℕ)
    (scores : List ℝ) (tokens : List ℕ) (text : List Char) :
    (computeGopScores (some rm) dict alignment scores tokens
      text).overallScore =
      if (computeGopScores (some rm) dict alignment scores tokens
        text).words.length = 0 then 0
      else jsRound (((((computeGopScores (some rm) dict alignment scores
        tokens text).words.map fun w => w.score).sum : ℤ) : ℚ) /
        (computeGopScores (some rm) dict alignment scores tokens
          text).words.length) := by
  by_cases h : (gopWords text).length = 0
  · rw [computeGopScores_words_empty rm dict alignment scores tokens text h]
    unfold computeGopScores
    dsimp only
    rw [if_pos h]
    simp
  · rw [computeGopScores_words_main rm dict alignment scores tokens text h]
    unfold computeGopScores
    dsimp only
    rw [if_neg h]
    dsimp only
    by_cases hL : ((List.range (min (gopWords text).length
        (getWordTokenRanges tokens rm).length)).map
        (mkWordResult dict (tokenFrameScores tokens alignment scores)
          (getWordTokenRanges tokens rm) (gopWords text))).length = 0
    · rw [if_neg (by omega), if_pos hL]
    · rw [if_pos (Nat.pos_of_ne_zero hL), if_neg hL]

/-- Claim C2 (amended): every word produced by `computeGopScores` has an
integer score in `[0, 100]`, but that score is
`round(100 × sigmoid(average attributed log-probability of the word))` —
not the rounded mean of the word's phoneme scores; the overall score is the
rounded mean of the word scores, or 0 when there are no words. -/
theorem c2_word_score_amended (rm : ℕ → Option (List Char))
    (dict : List Char → Option (List Char)) (alignment : List ℕ)
    (scores : List ℝ) (tokens : List ℕ) (text : List Char) (wi : ℕ)
    (hwi : wi < (computeGopScores (some rm) dict alignment scores tokens
      text).words.length) :
    0 ≤ ((computeGopScores (some rm) dict alignment scores tokens
      text).words.getD wi default).score ∧
    ((computeGopScores (some rm) dict alignment scores tokens
      text).words.getD wi default).score ≤ 100 ∧
    ((computeGopScores (some rm) dict alignment scores tokens
      text).words.getD wi default).score =
      jsRound (logisticSquash (wordAvgLogProb
        (tokenFrameScores tokens alignment scores)
        ((getWordTokenRanges tokens rm).getD wi (0, 0))) * 100) ∧
    (computeGopScores (some rm) dict alignment scores tokens
      text).overallScore =
      (if (computeGopScores (some rm) dict alignment scores tokens
        text).words.length = 0 then 0
      else jsRound (((((computeGopScores (some rm) dict alignment scores
        tokens text).words.map fun w => w.score).sum : ℤ) : ℚ) /
        (computeGopScores (some rm) dict alignment scores tokens
          text).words.length)) := by
  have hno : ¬(gopWords text).length = 0 := by
    intro h
    rw [computeGopScores_words_empty rm dict alignment scores tokens text h]
      at hwi
    exact absurd hwi (by simp)
  have hw := computeGopScores_words_main rm dict alignment scores tokens
    text hno
  rw [hw] at hwi
  rw [List.length_map, List.length_range] at hwi
  have hget : (computeGopScores (some rm) dict alignment scores tokens
      text).words.getD wi default =
      mkWordResult dict (tokenFrameScores tokens alignment scores)
        (getWordTokenRanges tokens rm) (gopWords text) wi := by
    rw [hw, List.getD_eq_getElem _ _ (by simpa using hwi), List.getElem_map,
      List.getElem_range]
  have hscore : (mkWordResult dict (tokenFrameScores tokens alignment scores)
      (getWordTokenRanges tokens rm) (gopWords text) wi).score =
      jsRound (logisticSquash (wordAvgLogProb
        (tokenFrameScores tokens alignment scores)
        ((getWordTokenRanges tokens rm).getD wi (0, 0))) * 100) := rfl
  have hpos := logisticSquash_pos (wordAvgLogProb
    (tokenFrameScores tokens alignment scores)
    ((getWordTokenRanges tokens rm).getD wi (0, 0)))
  have hlt := logisticSquash_lt_one (wordAvgLogProb
    (tokenFrameScores tokens alignment scores)
    ((getWordTokenRanges tokens rm).getD wi (0, 0)))
  refine ⟨?_, ?_, ?_,
    computeGopScores_overall_eq rm dict alignment scores tokens text⟩
  · rw [hget, hscore]
    exact jsRound_nonneg (by linarith)
  · rw [hget, hscore]
    refine jsRound_le_of_le ?_
    push_cast
    linarith
  · rw [hget]
    exact hscore

theorem gopWords_single_a : gopWords ['a'] = [['a']] := by
  simp [gopWords, splitOnSpace, normalizeText, collapseWs, trimWs,
    isSpaceChar, keepChar, isWordChar, dashToSpace, Char.toLower,
    List.dropWhile]

theorem c2_word_score_witness :
    0 < (computeGopScores (some c2RevMap) c2Dict [7, 7, 7, 7]
      [-10, -10, 0, 0] [7] ['a']).words.length ∧
    0 ≤ ((computeGopScores (some c2RevMap) c2Dict [7, 7, 7, 7]
      [-10, -10, 0, 0] [7] ['a']).words.getD 0 default).score ∧
    ((computeGopScores (some c2RevMap) c2Dict [7, 7, 7, 7]
      [-10, -10, 0, 0] [7] ['a']).words.getD 0 default).score ≤ 100 := by
  have hno : ¬(gopWords ['a']).length = 0 := by
    rw [gopWords_single_a]
    simp
  have hwi : 0 < (computeGopScores (some c2RevMap) c2Dict [7, 7, 7, 7]
      [-10, -10, 0, 0] [7] ['a']).words.length := by
    rw [computeGopScores_words_main c2RevMap c2Dict [7, 7, 7, 7]
      [-10, -10, 0, 0] [7] ['a'] hno]
    rw [gopWords_single_a,
      show getWordTokenRanges [7] c2RevMap = [(0, 1)] from rfl]
    simp
  exact ⟨hwi,
    (c2_word_score_amended c2RevMap c2Dict [7, 7, 7, 7] [-10, -10, 0, 0]
      [7] ['a'] 0 hwi).1,
    (c2_word_score_amended c2RevMap c2Dict [7, 7, 7, 7] [-10, -10, 0, 0]
      [7] ['a'] 0 hwi).2.1⟩

theorem c2_avg_concrete :
    wordAvgLogProb [[-10, -10, 0, 0]] (0, 1) = -5 := by
  unfold wordAvgLogProb
  have h : wordFrames [[-10, -10, 0, 0]] (0, 1) = [-10, -10, 0, 0] := rfl
  dsimp only
  rw [h]
  norm_num

theorem c2_dist_concrete :
    distributeScoreToPhonemes ["AH", "B"] [-10, -10, 0, 0] =
    [⟨phonemeToIpa "AH", logisticSquash (-10), true, none, none⟩,
     ⟨phonemeToIpa "B", logisticSquash 0, true, none, none⟩] := by
  unfold distributeScoreToPhonemes
  rw [if_neg (by norm_num)]
  rw [show List.range (["AH", "B"] : List String).length = [0, 1] from rfl,
    List.map_cons, List.map_cons, List.map_nil]
  dsimp only
  norm_num [PhonemeScore.mk.injEq, List.range', List.getD_cons_zero,
    List.getD_cons_succ, List.sum_cons, List.sum_nil, List.map_cons,
    List.map_nil, List.length_cons, List.length_nil]
  rw [show ([-10, -10, 0, 0] : List ℝ)[Int.toNat 2] = 0 from rfl,
    show ([-10, 0, 0] : List ℝ)[Int.toNat 2] = 0 from rfl]
  norm_num

theorem c2_result_word :
    (computeGopScores (some c2RevMap) c2Dict [7, 7, 7, 7] [-10, -10, 0, 0]
      [7] ['a']).words.getD 0 default =
    ⟨['a'],
     [⟨phonemeToIpa "AH", logisticSquash (-10), true, none, none⟩,
      ⟨phonemeToIpa "B", logisticSquash 0, true, none, none⟩],
     jsRound (logisticSquash (-5) * 100), none⟩ := by
  have hno : ¬(gopWords ['a']).length = 0 := by
    rw [gopWords_single_a]
    simp
  rw [computeGopScores_words_main c2RevMap c2Dict [7, 7, 7, 7]
    [-10, -10, 0, 0] [7] ['a'] hno]
  rw [gopWords_single_a,
    show getWordTokenRanges [7] c2RevMap = [(0, 1)] from rfl,
    show tokenFrameScores [7] [7, 7, 7, 7] [-10, -10, 0, 0] =
      [[-10, -10, 0, 0]] from rfl]
  rw [show List.range (min ([['a']] : List (List Char)).length
      ([((0 : ℕ), (1 : ℕ))] : List (ℕ × ℕ)).length) = [0] from rfl,
    List.map_cons, List.map_nil, List.getD_cons_zero]
  unfold mkWordResult
  dsimp only
  rw [show ([['a']] : List (List Char)).getD 0 [] = ['a'] from rfl,
    show ([((0 : ℕ), (1 : ℕ))] : List (ℕ × ℕ)).getD 0 (0, 0) = (0, 1)
      from rfl,
    show getPhonemes c2Dict ['a'] = ["AH", "B"] from rfl,
    show wordFrames [[-10, -10, 0, 0]] (0, 1) = [-10, -10, 0, 0] from rfl,
    c2_avg_concrete]
  rw [if_pos (by norm_num : 0 < (["AH", "B"] : List String).length)]
  rw [c2_dist_concrete]

theorem exp_two_gt_four : (4 : ℝ) < Real.exp 2 := by
  have h1 : (2 : ℝ) < Real.exp 1 := by
    have := Real.exp_one_gt_d9
    linarith
  have h2 : Real.exp 2 = Real.exp 1 * Real.exp 1 := by
    rw [← Real.exp_add]
    norm_num
  nlinarith

/-- Claim C2, counterexample: on a concrete run (one word "a" with the
two-phoneme dictionary entry "AH0 B", frame scores −10, −10, 0, 0 all
attributed to its single token), the word's score — which the source
computes as `round(100 × sigmoid(word average log-probability))` — differs
from `round(100 × mean of its phoneme scores)` claimed by the
specification: the former is at most 20, the latter at least 25. -/
theorem c2_word_score_counterexample :
    ((computeGopScores (some c2RevMap) c2Dict [7, 7, 7, 7] [-10, -10, 0, 0]
      [7] ['a']).words.getD 0 default).score ≠
    jsRound (100 * meanPhonemeScore
      ((computeGopScores (some c2RevMap) c2Dict [7, 7, 7, 7]
        [-10, -10, 0, 0] [7] ['a']).words.getD 0 default).phonemes) := by
  rw [c2_result_word]
  dsimp only
  have hmean : meanPhonemeScore
      [⟨phonemeToIpa "AH", logisticSquash (-10), true, none, none⟩,
       ⟨phonemeToIpa "B", logisticSquash 0, true, none, none⟩] =
      (logisticSquash (-10) + logisticSquash 0) / 2 := by
    unfold meanPhonemeScore
    norm_num [List.sum_cons, List.sum_nil]
  rw [hmean]
  have hs5 : logisticSquash (-5) < 1 / 5 := by
    unfold logisticSquash
    rw [show -((-5 : ℝ) + 2.0) / 1.5 = 2 by norm_num]
    exact one_div_lt_one_div_of_lt (by norm_num)
      (by linarith [exp_two_gt_four])
  have hs0 : 1 / 2 < logisticSquash 0 := by
    unfold logisticSquash
    rw [show -((0 : ℝ) + 2.0) / 1.5 = -(4 / 3) by norm_num]
    have he : Real.exp (-(4 / 3)) < 1 := by
      have h := Real.exp_lt_exp.mpr (show -(4 / 3 : ℝ) < 0 by norm_num)
      rwa [Real.exp_zero] at h
    exact one_div_lt_one_div_of_lt (by positivity) (by linarith)
  have hs10 := logisticSquash_pos (-10)
  have h20 : jsRound (logisticSquash (-5) * 100) ≤ 20 := by
    refine jsRound_le_of_le ?_
    push_cast
    linarith
  have h25 : (25 : ℤ) ≤ jsRound (100 *
      ((logisticSquash (-10) + logisticSquash 0) / 2)) := by
    unfold jsRound
    refine Int.le_floor.mpr ?_
    push_cast
    linarith
  omega

end Englitune
